import Mathlib

/-!
The wast driver (`src/main.cpp`).

A shallow embedding of `main`: the argument loop that sets the three integer
locals and collects the sources, and the per-source loop that calls the parser,
the type-inference entry point and the printer.  The collaborators declared in
`was_driver.hpp` and `ti.hpp` are parameters of the embedding.  The calls a run
makes are not recorded by the embedding itself: they are observed by running
`main` against collaborators that write down, in the outside world, every call
they receive (`logged`).
-/

namespace Wast

/-- Value of `EXIT_SUCCESS` from `<cstdlib>`. -/
def EXIT_SUCCESS : Int := 0

/-- Value of `EXIT_FAILURE` from `<cstdlib>`. -/
def EXIT_FAILURE : Int := 1

/-- The locals of `main` written by the argument loop (lines 14-17). -/
structure Locals where
  debug_level : Int
  print : Int
  inferTypes : Int
  sources : List String
  deriving DecidableEq, Repr

/-- Initial values of the locals: `debug_level = 0`, `print = 0`, `inferTypes = 0`,
and an empty `sources` vector. -/
def Locals.init : Locals :=
  { debug_level := 0, print := 0, inferTypes := 0, sources := [] }

/-- Body of the argument loop (lines 19-29) for one `argv[i]`. -/
def scanArg (st : Locals) (arg : String) : Locals :=
  if arg = "--debug" then { st with debug_level := 1 }
  else if arg = "--print" then { st with print := 1 }
  else if arg = "--infer-types" then { st with inferTypes := 1 }
  else if arg = "--infer-types-td" then { st with inferTypes := 2 }
  else { st with sources := st.sources ++ [arg] }

/-- The argument loop `for (int i = 1; i < argc; i++)` over `argv` (with
`argc = argv.length`): `argv[0]` is skipped. -/
def scanArgs (argv : List String) : Locals :=
  (argv.drop 1).foldl scanArg Locals.init

/-- Modelled from the spec: the declarations of `was_driver.hpp` and `ti.hpp`
are missing, so the collaborators are parameters.  `W` is all state outside the
locals of `main` (the driver's internals, the heap holding the ASTs, `std::cout`,
the engine's globals); `A` is the type of AST objects, and the pointer
`driver.result` is an `Option A` with `none` for `nullptr`.
* `ctor` is `WAS::WAS_Driver driver;` and yields the initial `driver.result`;
* `parse source debug_level (w, result)` is `driver.parse(source.c_str(), debug_level)`;
  it may read and replace `driver.result`, and may leave it null;
* `infer_types ast mode_is_top_down w` is `TI::infer_types`, taking the pointer
  by value, annotating in place (a change of `w`) and reporting success or failure
  (§6 of the spec);
* `print ast w` is the member call `print(std::cout)` on the object `driver.result`
  points to, so it takes an `A`; `endl` is `std::cout << std::endl`.
Each collaborator is assumed to return to `main`. -/
structure Externals (W A : Type) where
  ctor : W → W × Option A
  parse : String → Int → W × Option A → W × Option A
  infer_types : Option A → Bool → W → W × Bool
  print : A → W → W
  endl : W → W

/-- State threaded through the per-source loop: the outside world and the field
`driver.result`. -/
structure Run (W A : Type) where
  world : W
  result : Option A
  deriving DecidableEq, Repr

/-- Result of one pass through the body of the per-source loop: either the loop
goes on from a new state, or the run has reached `driver.result->print(...)` on
line 38 with `driver.result == nullptr`.  Dereferencing a null pointer is
undefined behaviour: the run ends there and `main` returns nothing. -/
inductive Step (W A : Type) where
  | next (st : Run W A)
  | nullDeref (world : W)
  deriving DecidableEq, Repr

/-- Line 33: `driver.parse(source.c_str(), debug_level);`. -/
def stepParse {W A : Type} (E : Externals W A) (a : Locals) (source : String)
    (st : Run W A) : Run W A :=
  { world := (E.parse source a.debug_level (st.world, st.result)).1,
    result := (E.parse source a.debug_level (st.world, st.result)).2 }

/-- Lines 35-36: `if (inferTypes) TI::infer_types(driver.result, inferTypes == 2);`.
The value returned by `infer_types` is not used. -/
def stepInfer {W A : Type} (E : Externals W A) (a : Locals) (st : Run W A) : Run W A :=
  if a.inferTypes ≠ 0 then
    { world := (E.infer_types st.result (a.inferTypes == 2) st.world).1,
      result := st.result }
  else st

/-- Lines 37-42: `if (print) { driver.result->print(std::cout); std::cout << std::endl;
driver.result = nullptr; }`.  The member call dereferences `driver.result` without
a check. -/
def stepPrint {W A : Type} (E : Externals W A) (a : Locals) (st : Run W A) : Step W A :=
  if a.print ≠ 0 then
    match st.result with
    | none => Step.nullDeref st.world
    | some ast => Step.next { world := E.endl (E.print ast st.world), result := none }
  else Step.next st

/-- Body of the per-source loop (lines 33-42). -/
def processSource {W A : Type} (E : Externals W A) (a : Locals) (st : Run W A)
    (source : String) : Step W A :=
  stepPrint E a (stepInfer E a (stepParse E a source st))

/-- The per-source loop `for (std::string &source : sources)` (lines 32-43). -/
def loop {W A : Type} (E : Externals W A) (a : Locals) : List String → Run W A → Step W A
  | [], st => Step.next st
  | source :: rest, st =>
    match processSource E a st source with
    | Step.next st1 => loop E a rest st1
    | Step.nullDeref w => Step.nullDeref w

/-- How a run of `main` ends: it returns an exit status, or it reaches the
dereference of a null `driver.result` on line 38 (undefined behaviour, no exit
status).  `world` is the outside world at that point. -/
inductive Outcome (W : Type) where
  | exit (status : Int) (world : W)
  | nullDeref (world : W)
  deriving DecidableEq, Repr

/-- The outside world a run leaves behind. -/
def Outcome.world {W : Type} : Outcome W → W
  | Outcome.exit _ w => w
  | Outcome.nullDeref w => w

/-- Whether `main` returned. -/
def Outcome.returned {W : Type} : Outcome W → Bool
  | Outcome.exit _ _ => true
  | Outcome.nullDeref _ => false

/-- Change of the representation of the outside world. -/
def Outcome.map {W V : Type} (f : W → V) : Outcome W → Outcome V
  | Outcome.exit s w => Outcome.exit s (f w)
  | Outcome.nullDeref w => Outcome.nullDeref (f w)

/-- The function `main` of `src/main.cpp`, with `argc = argv.length`. -/
def main {W A : Type} (E : Externals W A) (w : W) (argv : List String) : Outcome W :=
  if argv.length < 2 then
    Outcome.exit EXIT_FAILURE w
  else
    match loop E (scanArgs argv) (scanArgs argv).sources
        { world := (E.ctor w).1, result := (E.ctor w).2 } with
    | Step.next st => Outcome.exit EXIT_SUCCESS st.world
    | Step.nullDeref w1 => Outcome.nullDeref w1

/-- A call received by one of the collaborators, with the arguments passed.
`parse` also records the value of `driver.result` when the call returns, and
`infer_types` records whether inference succeeded (a value `main` discards). -/
inductive Call (A : Type) where
  | parse (source : String) (debug_level : Int) (result : Option A)
  | infer_types (ast : Option A) (mode_is_top_down : Bool) (ok : Bool)
  | print (ast : A)
  deriving DecidableEq, Repr

/-- The collaborators `E`, each of which also appends the call it receives to a
log kept in the outside world.  The log is written by the collaborator when it is
called, with the arguments it is called with; `main` does not see it. -/
def logged {W A : Type} (E : Externals W A) : Externals (W × List (Call A)) A :=
  { ctor := fun w => (((E.ctor w.1).1, w.2), (E.ctor w.1).2)
    parse := fun source debug_level p =>
      (((E.parse source debug_level (p.1.1, p.2)).1,
          p.1.2 ++ [Call.parse source debug_level (E.parse source debug_level (p.1.1, p.2)).2]),
        (E.parse source debug_level (p.1.1, p.2)).2)
    infer_types := fun ast mode w =>
      (((E.infer_types ast mode w.1).1,
          w.2 ++ [Call.infer_types ast mode (E.infer_types ast mode w.1).2]),
        (E.infer_types ast mode w.1).2)
    print := fun ast w => (E.print ast w.1, w.2 ++ [Call.print ast])
    endl := fun w => (E.endl w.1, w.2) }

/-- The calls the collaborators `E` receive, in order, when `main` runs on `argv`
from the world `w`. -/
def callsOf {W A : Type} (E : Externals W A) (w : W) (argv : List String) : List (Call A) :=
  (main (logged E) (w, []) argv).world.2

/-- A concrete set of collaborators used to run `main`: the world counts the
parses, every parse leaves a fresh AST numbered by that count, and inference
fails on every AST. -/
def demo : Externals Nat Nat :=
  { ctor := fun w => (w, none)
    parse := fun _ _ p => (p.1 + 1, some (p.1 + 1))
    infer_types := fun _ _ w => (w, false)
    print := fun _ w => w
    endl := fun w => w }

/-- Collaborators like `demo`, except that parsing the source named `missing`
produces no AST: it leaves `driver.result` as it finds it, which is null at the
start of the run and after every print. -/
def demoMissing : Externals Nat Nat :=
  { ctor := fun w => (w, none)
    parse := fun source _ p =>
      if source = "missing" then (p.1 + 1, p.2) else (p.1 + 1, some (p.1 + 1))
    infer_types := fun _ _ w => (w, false)
    print := fun _ w => w
    endl := fun w => w }

/-- The outside world at the end of a pass through the loop body. -/
def Step.world {W A : Type} : Step W A → W
  | Step.next st => st.world
  | Step.nullDeref w => w

/-- Whether the loop goes on after a pass through its body. -/
def Step.returned {W A : Type} : Step W A → Bool
  | Step.next _ => true
  | Step.nullDeref _ => false

/-- Forget the log of a state of a run against logging collaborators. -/
def Run.strip {W A L : Type} (st : Run (W × L) A) : Run W A :=
  { world := st.world.1, result := st.result }

/-- Forget the log of a step of a run against logging collaborators. -/
def Step.strip {W A L : Type} : Step (W × L) A → Step W A
  | Step.next st => Step.next st.strip
  | Step.nullDeref w => Step.nullDeref w.1

/-- The four strings the argument loop compares against. -/
def isFlag (a : String) : Bool :=
  a == "--debug" || a == "--print" || a == "--infer-types" || a == "--infer-types-td"

/-- The two inference flags. -/
def isInferFlag (a : String) : Bool :=
  a == "--infer-types" || a == "--infer-types-td"

/-- Specification side: the arguments that are not exactly one of the four flags,
in command-line order, duplicates kept. -/
def sourcesOf (args : List String) : List String :=
  args.filter (fun a => !isFlag a)

/-- Specification side: `1` when the flag `f` occurs among the arguments, else `0`. -/
def flagGiven (args : List String) (f : String) : Int :=
  if f ∈ args then 1 else 0

/-- Specification side: the last inference flag on the command line, if any. -/
def lastInferFlag (args : List String) : Option String :=
  (args.filter isInferFlag).getLast?

/-- Specification side: `0` without an inference flag, otherwise `2` when the last
inference flag is `--infer-types-td` and `1` when it is `--infer-types`. -/
def inferTypesOf (args : List String) : Int :=
  match lastInferFlag args with
  | none => 0
  | some f => if f = "--infer-types-td" then 2 else 1

/-- Specification side: the locals after the argument loop over `args`. -/
def localsOf (args : List String) : Locals :=
  { debug_level := flagGiven args "--debug", print := flagGiven args "--print",
    inferTypes := inferTypesOf args, sources := sourcesOf args }

/-- A call with the AST pointers and the outcomes erased: what `main` itself
decides about the call. -/
inductive Shape where
  | parse (source : String) (debug_level : Int)
  | infer_types (mode_is_top_down : Bool)
  | print
  deriving DecidableEq, Repr

/-- Erase the pointers and outcomes of a call. -/
def Call.shape {A : Type} : Call A → Shape
  | Call.parse s d _ => Shape.parse s d
  | Call.infer_types _ m _ => Shape.infer_types m
  | Call.print _ => Shape.print

/-- Specification side: the shapes of the calls for one source, given the locals. -/
def block (a : Locals) (source : String) : List Shape :=
  [Shape.parse source a.debug_level]
    ++ (if a.inferTypes ≠ 0 then [Shape.infer_types (a.inferTypes == 2)] else [])
    ++ (if a.print ≠ 0 then [Shape.print] else [])

/-- Specification side: the calls for one source whose parse leaves `r` in
`driver.result` and whose inference reports `ok`: the parse, the inference call
on `r` when an inference flag was given, and the print call on the AST `r` points
to when `--print` was given (none when `r` is null). -/
def blockOf {A : Type} (a : Locals) (source : String) (r : Option A) (ok : Bool) :
    List (Call A) :=
  [Call.parse source a.debug_level r]
    ++ (if a.inferTypes ≠ 0 then [Call.infer_types r (a.inferTypes == 2) ok] else [])
    ++ (if a.print ≠ 0 then
          (match r with
            | some ast => [Call.print ast]
            | none => [])
        else [])

/-- Specification side: `log` is a sequence of calls for the sources `srcs`, one
`blockOf` per source in order; it stops after the block of the first source whose
parse leaves a null `driver.result` while `--print` is set, and `ret` tells
whether it went through all the sources. -/
def Logged {A : Type} (a : Locals) : List String → Bool → List (Call A) → Prop
  | [], ret, log => ret = true ∧ log = []
  | s :: rest, ret, log => ∃ (r : Option A) (ok : Bool),
      (a.print ≠ 0 ∧ r = none ∧ ret = false ∧ log = blockOf a s r ok)
      ∨ (¬ (a.print ≠ 0 ∧ r = none)
          ∧ ∃ log1, log = blockOf a s r ok ++ log1 ∧ Logged a rest ret log1)

/-- The modes passed to `infer_types`, in call order. -/
def inferModes {A : Type} (t : List (Call A)) : List Bool :=
  t.filterMap (fun c => match c with
    | Call.infer_types _ m _ => some m
    | _ => none)

/-- The sources passed to `parse`, in call order. -/
def parsedSources {A : Type} (t : List (Call A)) : List String :=
  t.filterMap (fun c => match c with
    | Call.parse s _ _ => some s
    | _ => none)

/-- The ASTs handed to the printer, in call order. -/
def printedAsts {A : Type} (t : List (Call A)) : List A :=
  t.filterMap (fun c => match c with
    | Call.print r => some r
    | _ => none)

/-- The values left in `driver.result` by the parse calls, in call order. -/
def parseResults {A : Type} (t : List (Call A)) : List (Option A) :=
  t.filterMap (fun c => match c with
    | Call.parse _ _ r => some r
    | _ => none)

/-- Every `infer_types` call receives the pointer that the most recent `parse`
left in `driver.result`, and every `print` call is made on the AST that pointer
points to; `cur` is that pointer, `none` before any parse. -/
def astLinked {A : Type} : Option (Option A) → List (Call A) → Prop
  | _, [] => True
  | _, Call.parse _ _ r :: rest => astLinked (some r) rest
  | cur, Call.infer_types ast _ _ :: rest => cur = some ast ∧ astLinked cur rest
  | cur, Call.print ast :: rest => cur = some (some ast) ∧ astLinked cur rest

/-- The collaborators `E` with the success value reported by `infer_types` replaced
by `verdict`; everything else, the effect of `infer_types` on the world included,
is unchanged. -/
def withVerdict {W A : Type} (E : Externals W A) (verdict : Option A → Bool → W → Bool) :
    Externals W A :=
  { E with infer_types := fun ast mode w => ((E.infer_types ast mode w).1, verdict ast mode w) }

/-- Specification side: the sequence of calls of a run over the arguments `args`:
for each source in command-line order `parse(source, debug_level)`, then one
`infer_types` call exactly when an inference flag was given (top-down exactly when
the last inference flag is `--infer-types-td`), then one `print` call exactly when
`--print` was given. -/
def pipeline (args : List String) : List Shape :=
  (sourcesOf args).flatMap (fun s =>
    [Shape.parse s (if "--debug" ∈ args then 1 else 0)]
      ++ (if "--infer-types" ∈ args ∨ "--infer-types-td" ∈ args
          then [Shape.infer_types (decide (lastInferFlag args = some "--infer-types-td"))]
          else [])
      ++ (if "--print" ∈ args then [Shape.print] else []))

end Wast

/-!
The inference engine behind `TI::infer_types` (`ti.hpp`).

The engine is not part of `src/`; the definitions of this namespace follow
sections 3, 4.1 and 4.2 of the specification.
-/

namespace TI

/-- Modelled from the spec: the engine's type representation is missing from
`src/`.  §3 "Type": a tagged value, either `TypeVar(id)` or
`Constructor(name, args)` with an ordered sequence of argument types, covering
primitives (arity 0) and compound types alike. -/
inductive Ty where
  | TypeVar (id : Nat)
  | Constructor (name : String) (args : List Ty)

/-- Modelled from the spec: the primitive `Int`, a constructor of arity 0 (§3). -/
def Ty.Int : Ty := Ty.Constructor "Int" []

/-- Modelled from the spec: the function type `Function(a, b)`, a constructor with
the two arguments `a` and `b` (§3, §4.4). -/
def Ty.Function (a b : Ty) : Ty := Ty.Constructor "Function" [a, b]

/-- Modelled from the spec: the error kinds of §7; the engine that raises them is
missing from `src/`. -/
inductive TypeError where
  | UnboundIdentifierError
  | TypeMismatchError
  | OccursCheckError
  | BranchTypeMismatchError
  | AscriptionMismatchError
  | AmbiguousTypeError
  deriving DecidableEq, Repr

/-- Modelled from the spec: §3 "Substitution", a finite mapping from type-variable
id to type, kept as an association list in which the first entry for an id counts. -/
abbrev Substitution := List (Nat × Ty)

mutual
/-- Modelled from the spec: one structural pass of substitution application
(§4.1): every variable bound by `s` is replaced by its binding, constructors are
traversed argument by argument. -/
def applyOnce (s : Substitution) : Ty → Ty
  | Ty.TypeVar v =>
    match s.lookup v with
    | some t => t
    | none => Ty.TypeVar v
  | Ty.Constructor n args => Ty.Constructor n (applyOnceList s args)
/-- Modelled from the spec: `applyOnce` on an argument list. -/
def applyOnceList (s : Substitution) : List Ty → List Ty
  | [] => []
  | t :: ts => applyOnce s t :: applyOnceList s ts
end

/-- Modelled from the spec: "apply a substitution to a type (structural,
recursive, must chase transitive bindings)" (§4.1, §3).  A chain
`v1 -> v2 -> ... -> Constructor(...)` in a substitution with `n` entries and no
cycle has at most `n` links, so `n` passes reach the fixed point. -/
def apply (s : Substitution) (t : Ty) : Ty :=
  Nat.iterate (applyOnce s) s.length t

/-- Modelled from the spec: "compose two substitutions (apply the second to the
range of the first, then union, with entries from the second taking precedence
on id collision)" (§4.1). -/
def compose (s1 s2 : Substitution) : Substitution :=
  s2 ++ s1.map (fun p => (p.1, apply s2 p.2))

mutual
/-- Modelled from the spec: the occurs check of §4.2, whether the variable `v`
appears free in a type. -/
def occurs (v : Nat) : Ty → Bool
  | Ty.TypeVar w => v == w
  | Ty.Constructor _ args => occursList v args
/-- Modelled from the spec: `occurs` on an argument list. -/
def occursList (v : Nat) : List Ty → Bool
  | [] => false
  | t :: ts => occurs v t || occursList v ts
end

/-- Modelled from the spec: "bind the variable to the other type, after an
occurs-check: fails with `OccursCheckError` if the variable appears free in the
other type" (§4.2). -/
def bindVar (v : Nat) (t : Ty) (s : Substitution) : Except TypeError Substitution :=
  if occurs v t then Except.error TypeError.OccursCheckError
  else Except.ok (compose s [(v, t)])

/-- Modelled from the spec: "unify argument lists pairwise, left to right,
short-circuiting on first failure, composing substitutions as they are produced
so later arguments see earlier bindings" (§4.2); `u` is the unifier used for each
pair. -/
def unifyArgs (u : Ty → Ty → Substitution → Option (Except TypeError Substitution)) :
    List Ty → List Ty → Substitution → Option (Except TypeError Substitution)
  | a :: as, b :: bs, s =>
    match u a b s with
    | some (Except.ok s1) => unifyArgs u as bs s1
    | other => other
  | _, _, s => some (Except.ok s)

/-- Modelled from the spec: `unify(t1, t2, subst) -> Result<Substitution, TypeError>`
of §4.2, the implementation being missing from `src/`.  Both types are resolved
through `subst` first; two variables with equal ids succeed trivially; a variable
against another type is bound after the occurs check; two constructors fail with
`TypeMismatchError` when names or arities differ and otherwise unify their
arguments pairwise.  The recursion on the resolved arguments is bounded by `fuel`:
`none` means the fuel ran out before an answer was reached. -/
def unify : Nat → Ty → Ty → Substitution → Option (Except TypeError Substitution)
  | 0, _, _, _ => none
  | fuel + 1, t1, t2, s =>
    match apply s t1, apply s t2 with
    | Ty.TypeVar a, Ty.TypeVar b =>
      if a = b then some (Except.ok s) else some (bindVar a (Ty.TypeVar b) s)
    | Ty.TypeVar a, Ty.Constructor n args => some (bindVar a (Ty.Constructor n args) s)
    | Ty.Constructor n args, Ty.TypeVar b => some (bindVar b (Ty.Constructor n args) s)
    | Ty.Constructor n1 args1, Ty.Constructor n2 args2 =>
      if n1 ≠ n2 ∨ args1.length ≠ args2.length then
        some (Except.error TypeError.TypeMismatchError)
      else unifyArgs (unify fuel) args1 args2 s

/-- The substitution `s1` is `s` extended by zero or more bindings `v -> t`, each
made with `v` not occurring in `t`. -/
inductive Extends : Substitution → Substitution → Prop where
  | refl (s : Substitution) : Extends s s
  | bind (s s1 : Substitution) (v : Nat) (t : Ty) :
      Extends s s1 → occurs v t = false → Extends s (compose s1 [(v, t)])

/-- No variable bound by `s` occurs in a type bound by `s`: the substitution is
idempotent and in particular binds no variable to a type containing it. -/
def Idempotent (s : Substitution) : Prop :=
  ∀ p ∈ s, ∀ q ∈ s, occurs q.1 p.2 = false

/-- No variable bound by `s` occurs in `t`. -/
def Resolved (s : Substitution) (t : Ty) : Prop :=
  ∀ q ∈ s, occurs q.1 t = false

end TI

namespace Wast

/-! ## The argument loop -/

theorem scanArg_debug (st : Locals) : scanArg st "--debug" = { st with debug_level := 1 } := by
  simp [scanArg]

theorem scanArg_print (st : Locals) : scanArg st "--print" = { st with print := 1 } := by
  simp [scanArg]

theorem scanArg_infer (st : Locals) :
    scanArg st "--infer-types" = { st with inferTypes := 1 } := by
  simp [scanArg]

theorem scanArg_inferTd (st : Locals) :
    scanArg st "--infer-types-td" = { st with inferTypes := 2 } := by
  simp [scanArg]

theorem scanArg_source (st : Locals) (a : String) (h : isFlag a = false) :
    scanArg st a = { st with sources := st.sources ++ [a] } := by
  simp [isFlag] at h
  simp [scanArg, h]

theorem isFlag_cases (a : String) :
    a = "--debug" ∨ a = "--print" ∨ a = "--infer-types" ∨ a = "--infer-types-td"
      ∨ isFlag a = false := by
  by_cases h1 : a = "--debug"
  · exact Or.inl h1
  by_cases h2 : a = "--print"
  · exact Or.inr (Or.inl h2)
  by_cases h3 : a = "--infer-types"
  · exact Or.inr (Or.inr (Or.inl h3))
  by_cases h4 : a = "--infer-types-td"
  · exact Or.inr (Or.inr (Or.inr (Or.inl h4)))
  · right; right; right; right
    simp [isFlag, h1, h2, h3, h4]

/-- The argument loop computes the specification-side values. -/
theorem foldl_scanArg (args : List String) :
    args.foldl scanArg Locals.init =
      { debug_level := flagGiven args "--debug", print := flagGiven args "--print",
        inferTypes := inferTypesOf args, sources := sourcesOf args } := by
  induction args using List.reverseRecOn with
  | nil => rfl
  | append_singleton l a ih =>
    rw [List.foldl_append, ih]
    simp only [List.foldl_cons, List.foldl_nil]
    rcases isFlag_cases a with h | h | h | h | h
    · subst h
      simp [scanArg_debug, flagGiven, inferTypesOf, lastInferFlag, sourcesOf, isFlag,
        isInferFlag, List.filter_append]
    · subst h
      simp [scanArg_print, flagGiven, inferTypesOf, lastInferFlag, sourcesOf, isFlag,
        isInferFlag, List.filter_append]
    · subst h
      simp [scanArg_infer, flagGiven, inferTypesOf, lastInferFlag, sourcesOf, isFlag,
        isInferFlag, List.filter_append]
    · subst h
      simp [scanArg_inferTd, flagGiven, inferTypesOf, lastInferFlag, sourcesOf, isFlag,
        isInferFlag, List.filter_append]
    · have h2 := h
      simp [isFlag] at h2
      obtain ⟨⟨⟨h3, h4⟩, h5⟩, h6⟩ := h2
      have h3s : ¬ "--debug" = a := fun e => h3 e.symm
      have h4s : ¬ "--print" = a := fun e => h4 e.symm
      simp [scanArg_source _ _ h, flagGiven, inferTypesOf, lastInferFlag, sourcesOf, h,
        isInferFlag, List.filter_append, h3s, h4s, h5, h6]

/-- The locals after the argument loop, for `argv = prog :: args`. -/
theorem scanArgs_cons (prog : String) (args : List String) :
    scanArgs (prog :: args) =
      { debug_level := flagGiven args "--debug", print := flagGiven args "--print",
        inferTypes := inferTypesOf args, sources := sourcesOf args } := by
  simp [scanArgs, foldl_scanArg]

theorem lastInferFlag_mem (args : List String) (f : String)
    (h : lastInferFlag args = some f) : f ∈ args ∧ isInferFlag f = true := by
  unfold lastInferFlag at h
  have hm := List.mem_of_getLast?_eq_some h
  simpa [List.mem_filter] using hm

theorem lastInferFlag_eq_none (args : List String) :
    lastInferFlag args = none ↔ "--infer-types" ∉ args ∧ "--infer-types-td" ∉ args := by
  unfold lastInferFlag
  rw [List.getLast?_eq_none_iff, List.filter_eq_nil_iff]
  constructor
  · intro h
    exact ⟨fun hm => by simpa [isInferFlag] using h _ hm,
      fun hm => by simpa [isInferFlag] using h _ hm⟩
  · rintro ⟨h1, h2⟩ a ha
    simp only [isInferFlag, Bool.or_eq_true, beq_iff_eq, not_or]
    exact ⟨fun e => h1 (e ▸ ha), fun e => h2 (e ▸ ha)⟩

theorem inferTypesOf_ne_zero (args : List String) :
    inferTypesOf args ≠ 0 ↔ ("--infer-types" ∈ args ∨ "--infer-types-td" ∈ args) := by
  unfold inferTypesOf
  cases h : lastInferFlag args with
  | none =>
    have := (lastInferFlag_eq_none args).1 h
    simp [this.1, this.2]
  | some f =>
    have hm := lastInferFlag_mem args f h
    have hf : f = "--infer-types" ∨ f = "--infer-types-td" := by
      simpa [isInferFlag] using hm.2
    rcases hf with e | e
    · subst e; simp [hm.1]
    · subst e; simp [hm.1]

theorem inferTypesOf_eq_two (args : List String) :
    (inferTypesOf args == 2) = decide (lastInferFlag args = some "--infer-types-td") := by
  unfold inferTypesOf
  cases h : lastInferFlag args with
  | none => simp
  | some f =>
    by_cases e : f = "--infer-types-td"
    · simp [e]
    · simp [e]

theorem lastInferFlag_append (pre post : List String) (f : String)
    (hf : isInferFlag f = true) (hpost : ∀ x ∈ post, isInferFlag x = false) :
    lastInferFlag (pre ++ f :: post) = some f := by
  have hp : post.filter isInferFlag = [] := by
    rw [List.filter_eq_nil_iff]
    intro x hx
    simp [hpost x hx]
  unfold lastInferFlag
  rw [List.filter_append, List.filter_cons_of_pos hf, hp]
  simp

theorem lastInferFlag_of_only (args : List String) (f g : String)
    (hfg : (f = "--infer-types" ∧ g = "--infer-types-td")
      ∨ (f = "--infer-types-td" ∧ g = "--infer-types"))
    (hf : f ∈ args) (hg : g ∉ args) : lastInferFlag args = some f := by
  cases h : lastInferFlag args with
  | none =>
    have := (lastInferFlag_eq_none args).1 h
    rcases hfg with ⟨e, _⟩ | ⟨e, _⟩
    · exact absurd (e ▸ hf) this.1
    · exact absurd (e ▸ hf) this.2
  | some x =>
    have hm := lastInferFlag_mem args x h
    have hx : x = "--infer-types" ∨ x = "--infer-types-td" := by
      simpa [isInferFlag] using hm.2
    rcases hfg with ⟨e1, e2⟩ | ⟨e1, e2⟩ <;> rcases hx with e | e
    · rw [e, e1]
    · exact absurd (e ▸ hm.1) (e2 ▸ hg)
    · exact absurd (e ▸ hm.1) (e2 ▸ hg)
    · rw [e, e1]

theorem inferTypesOf_of_last (args : List String) (f : String)
    (h : lastInferFlag args = some f) :
    inferTypesOf args = if f = "--infer-types-td" then 2 else 1 := by
  simp [inferTypesOf, h]

theorem block_localsOf (args : List String) (s : String) :
    block (localsOf args) s =
      [Shape.parse s (if "--debug" ∈ args then 1 else 0)]
        ++ (if "--infer-types" ∈ args ∨ "--infer-types-td" ∈ args
            then [Shape.infer_types (decide (lastInferFlag args = some "--infer-types-td"))]
            else [])
        ++ (if "--print" ∈ args then [Shape.print] else []) := by
  have h1 := inferTypesOf_ne_zero args
  have h2 := inferTypesOf_eq_two args
  unfold block localsOf flagGiven
  simp only [h2]
  by_cases hi : "--infer-types" ∈ args ∨ "--infer-types-td" ∈ args
  · have := h1.2 hi
    by_cases hp : "--print" ∈ args <;> simp [hi, hp, this]
  · have : inferTypesOf args = 0 := by
      by_contra hne
      exact hi (h1.1 hne)
    by_cases hp : "--print" ∈ args <;> simp [hi, hp, this]

theorem sourcesOf_insert (a b : List String) (f : String) (hf : isFlag f = true) :
    sourcesOf (a ++ f :: b) = sourcesOf (a ++ b) := by
  simp [sourcesOf, List.filter_append, hf]

theorem sourcesOf_eq_filter (args : List String) :
    sourcesOf args = args.filter (fun a => decide (a ≠ "--debug" ∧ a ≠ "--print"
      ∧ a ≠ "--infer-types" ∧ a ≠ "--infer-types-td")) := by
  unfold sourcesOf
  congr 1
  funext a
  by_cases h1 : a = "--debug" <;> by_cases h2 : a = "--print" <;>
    by_cases h3 : a = "--infer-types" <;> by_cases h4 : a = "--infer-types-td" <;>
    simp [isFlag, h1, h2, h3, h4]

theorem localsOf_insert (a b : List String) (f : String)
    (hf : f = "--debug" ∨ f = "--print") :
    localsOf (a ++ f :: b) =
      { localsOf (a ++ b) with
        debug_level := if f = "--debug" then 1 else (localsOf (a ++ b)).debug_level
        print := if f = "--print" then 1 else (localsOf (a ++ b)).print } := by
  have hflag : isFlag f = true := by rcases hf with e | e <;> subst e <;> rfl
  have hinf : isInferFlag f = false := by rcases hf with e | e <;> subst e <;> rfl
  have hl : lastInferFlag (a ++ f :: b) = lastInferFlag (a ++ b) := by
    simp [lastInferFlag, List.filter_append, hinf]
  have hi : inferTypesOf (a ++ f :: b) = inferTypesOf (a ++ b) := by
    simp [inferTypesOf, hl]
  have hs := sourcesOf_insert a b f hflag
  rcases hf with e | e
  · subst e
    simp [localsOf, hi, hs, flagGiven]
  · subst e
    simp [localsOf, hi, hs, flagGiven]

/-! ## The per-source loop -/

/-- One pass through the loop body against logging collaborators appends one
`blockOf` to the log, and ends the run exactly when `--print` is set and the parse
left `driver.result` null. -/
theorem processSource_logged {W A : Type} (E : Externals W A) (a : Locals)
    (st : Run (W × List (Call A)) A) (s : String) :
    ∃ (r : Option A) (ok : Bool),
      (a.print ≠ 0 ∧ r = none ∧ ∃ w1, processSource (logged E) a st s
          = Step.nullDeref (w1, st.world.2 ++ blockOf a s r ok))
      ∨ (¬ (a.print ≠ 0 ∧ r = none) ∧ ∃ st1, processSource (logged E) a st s = Step.next st1
          ∧ st1.world.2 = st.world.2 ++ blockOf a s r ok) := by
  refine ⟨(E.parse s a.debug_level (st.world.1, st.result)).2,
    (E.infer_types (E.parse s a.debug_level (st.world.1, st.result)).2 (a.inferTypes == 2)
      (E.parse s a.debug_level (st.world.1, st.result)).1).2, ?_⟩
  by_cases hi : a.inferTypes = 0 <;> by_cases hp : a.print = 0
  · right
    refine ⟨fun h => h.1 hp, ?_⟩
    simp [processSource, stepPrint, stepInfer, stepParse, logged, blockOf, hi, hp]
  · cases hr : (E.parse s a.debug_level (st.world.1, st.result)).2 with
    | none =>
      left
      refine ⟨hp, rfl, ?_⟩
      simp [processSource, stepPrint, stepInfer, stepParse, logged, blockOf, hi, hp, hr]
    | some ast =>
      right
      refine ⟨fun h => by simp at h, ?_⟩
      simp [processSource, stepPrint, stepInfer, stepParse, logged, blockOf, hi, hp, hr]
  · right
    refine ⟨fun h => h.1 hp, ?_⟩
    simp [processSource, stepPrint, stepInfer, stepParse, logged, blockOf, hi, hp]
  · cases hr : (E.parse s a.debug_level (st.world.1, st.result)).2 with
    | none =>
      left
      refine ⟨hp, rfl, ?_⟩
      simp [processSource, stepPrint, stepInfer, stepParse, logged, blockOf, hi, hp, hr]
    | some ast =>
      right
      refine ⟨fun h => by simp at h, ?_⟩
      simp [processSource, stepPrint, stepInfer, stepParse, logged, blockOf, hi, hp, hr]

/-- The log of the per-source loop run against logging collaborators. -/
theorem loop_logged {W A : Type} (E : Externals W A) (a : Locals) (srcs : List String)
    (st : Run (W × List (Call A)) A) :
    ∃ log : List (Call A), Logged a srcs (loop (logged E) a srcs st).returned log
      ∧ (loop (logged E) a srcs st).world.2 = st.world.2 ++ log := by
  induction srcs generalizing st with
  | nil => exact ⟨[], ⟨rfl, rfl⟩, by simp [loop, Step.world]⟩
  | cons s rest ih =>
    obtain ⟨r, ok, h | h⟩ := processSource_logged E a st s
    · obtain ⟨hp, hr, w1, hw⟩ := h
      refine ⟨blockOf a s r ok, ?_, ?_⟩
      · simp only [loop, hw, Step.returned]
        exact ⟨r, ok, Or.inl ⟨hp, hr, rfl, rfl⟩⟩
      · simp only [loop, hw, Step.world]
    · obtain ⟨hn, st1, hs, hl⟩ := h
      obtain ⟨log1, g1, g2⟩ := ih st1
      refine ⟨blockOf a s r ok ++ log1, ?_, ?_⟩
      · simp only [loop, hs]
        exact ⟨r, ok, Or.inr ⟨hn, log1, rfl, g1⟩⟩
      · simp only [loop, hs]
        rw [g2, hl, List.append_assoc]

/-- Logging does not change one pass through the loop body. -/
theorem processSource_strip {W A : Type} (E : Externals W A) (a : Locals)
    (st : Run (W × List (Call A)) A) (s : String) :
    (processSource (logged E) a st s).strip = processSource E a st.strip s := by
  by_cases hi : a.inferTypes = 0 <;> by_cases hp : a.print = 0
  · simp [processSource, stepPrint, stepInfer, stepParse, logged, Step.strip, Run.strip, hi, hp]
  · cases hr : (E.parse s a.debug_level (st.world.1, st.result)).2 <;>
      simp [processSource, stepPrint, stepInfer, stepParse, logged, Step.strip, Run.strip,
        hi, hp, hr]
  · simp [processSource, stepPrint, stepInfer, stepParse, logged, Step.strip, Run.strip, hi, hp]
  · cases hr : (E.parse s a.debug_level (st.world.1, st.result)).2 <;>
      simp [processSource, stepPrint, stepInfer, stepParse, logged, Step.strip, Run.strip,
        hi, hp, hr]

/-- Logging does not change the per-source loop. -/
theorem loop_strip {W A : Type} (E : Externals W A) (a : Locals) (srcs : List String)
    (st : Run (W × List (Call A)) A) :
    (loop (logged E) a srcs st).strip = loop E a srcs st.strip := by
  induction srcs generalizing st with
  | nil => rfl
  | cons s rest ih =>
    have h := processSource_strip E a st s
    simp only [loop]
    cases hl : processSource (logged E) a st s with
    | next st1 =>
      rw [hl] at h
      simp only [Step.strip] at h
      rw [← h]
      exact ih st1
    | nullDeref w1 =>
      rw [hl] at h
      simp only [Step.strip] at h
      rw [← h]
      rfl

/-- Logging does not change the run: forgetting the log of the outcome of `main`
against the logging collaborators gives the outcome of `main` against `E`. -/
theorem main_logged {W A : Type} (E : Externals W A) (w : W) (l : List (Call A))
    (argv : List String) :
    (main (logged E) (w, l) argv).map Prod.fst = main E w argv := by
  by_cases h : argv.length < 2
  · simp [main, h, Outcome.map]
  · have hs := loop_strip E (scanArgs argv) (scanArgs argv).sources
      { world := ((logged E).ctor (w, l)).1, result := ((logged E).ctor (w, l)).2 }
    simp only [main, h, if_false]
    have e : ({ world := ((logged E).ctor (w, l)).1, result := ((logged E).ctor (w, l)).2 }
        : Run (W × List (Call A)) A).strip
        = { world := (E.ctor w).1, result := (E.ctor w).2 } := rfl
    rw [e] at hs
    rw [← hs]
    cases loop (logged E) (scanArgs argv) (scanArgs argv).sources
        { world := ((logged E).ctor (w, l)).1, result := ((logged E).ctor (w, l)).2 } with
    | next st => rfl
    | nullDeref w1 => rfl

theorem main_logged_returned {W A : Type} (E : Externals W A) (w : W) (l : List (Call A))
    (argv : List String) :
    (main (logged E) (w, l) argv).returned = (main E w argv).returned := by
  rw [← main_logged E w l argv]
  cases main (logged E) (w, l) argv <;> rfl

/-- The per-source loop goes through all the sources when `--print` is not set, or
when no parse leaves `driver.result` null. -/
theorem loop_returns {W A : Type} (E : Externals W A) (a : Locals) (srcs : List String)
    (st : Run W A) (h : a.print = 0 ∨ ∀ s d p, (E.parse s d p).2 ≠ none) :
    (loop E a srcs st).returned = true := by
  induction srcs generalizing st with
  | nil => rfl
  | cons s rest ih =>
    simp only [loop]
    cases hs : processSource E a st s with
    | next st1 => exact ih st1
    | nullDeref w1 =>
      exfalso
      simp only [processSource, stepPrint] at hs
      rcases h with hp | hp
      · simp [hp] at hs
      · by_cases hq : a.print = 0
        · simp [hq] at hs
        · simp only [ne_eq, hq, not_false_eq_true, if_true] at hs
          have hne := hp s a.debug_level (st.world, st.result)
          by_cases hi : a.inferTypes = 0
          · simp only [stepInfer, stepParse, hi, ne_eq, not_true_eq_false, if_false] at hs
            cases hr : (E.parse s a.debug_level (st.world, st.result)).2 with
            | none => exact hne hr
            | some ast => rw [hr] at hs; simp at hs
          · simp only [stepInfer, stepParse, hi, ne_eq, not_false_eq_true, if_true] at hs
            cases hr : (E.parse s a.debug_level (st.world, st.result)).2 with
            | none => exact hne hr
            | some ast => rw [hr] at hs; simp at hs

theorem outcome_of_step {W A : Type} (r : Step W A) (status : Int) :
    (match r with
      | Step.next st => Outcome.exit status st.world
      | Step.nullDeref w1 => Outcome.nullDeref w1).world = r.world
    ∧ (match r with
      | Step.next st => Outcome.exit status st.world
      | Step.nullDeref w1 => Outcome.nullDeref w1).returned = r.returned := by
  cases r <;> exact ⟨rfl, rfl⟩

/-- The run of `main` for `argv = prog :: args`, unfolded. -/
theorem main_cons {W A : Type} (E : Externals W A) (w : W) (prog x : String)
    (rest : List String) :
    main E w (prog :: x :: rest) =
      (match loop E (localsOf (x :: rest)) (sourcesOf (x :: rest))
          { world := (E.ctor w).1, result := (E.ctor w).2 } with
        | Step.next st => Outcome.exit EXIT_SUCCESS st.world
        | Step.nullDeref w1 => Outcome.nullDeref w1) := by
  simp [main, scanArgs_cons, localsOf]

/-- The calls received by the collaborators during a run of `main` on
`argv = prog :: args`. -/
theorem main_calls {W A : Type} (E : Externals W A) (w : W) (prog : String)
    (args : List String) :
    Logged (localsOf args) (sourcesOf args) (main E w (prog :: args)).returned
      (callsOf E w (prog :: args)) := by
  rw [← main_logged_returned E w [] (prog :: args)]
  cases args with
  | nil => exact ⟨rfl, rfl⟩
  | cons x rest =>
    obtain ⟨log, h1, h2⟩ := loop_logged E (localsOf (x :: rest)) (sourcesOf (x :: rest))
      { world := ((logged E).ctor (w, [])).1, result := ((logged E).ctor (w, [])).2 }
    have hw := outcome_of_step (loop (logged E) (localsOf (x :: rest)) (sourcesOf (x :: rest))
      { world := ((logged E).ctor (w, [])).1, result := ((logged E).ctor (w, [])).2 })
      EXIT_SUCCESS
    unfold callsOf
    rw [main_cons, hw.1, hw.2, h2]
    simpa [logged] using h1

/-- Sufficient conditions for `main` to return. -/
theorem main_returns {W A : Type} (E : Externals W A) (w : W) (argv : List String)
    (h : "--print" ∉ argv.tail ∨ ∀ s d p, (E.parse s d p).2 ≠ none) :
    (main E w argv).returned = true := by
  cases argv with
  | nil => rfl
  | cons prog args =>
    cases args with
    | nil => rfl
    | cons x rest =>
      rw [main_cons, (outcome_of_step _ EXIT_SUCCESS).2]
      apply loop_returns
      rcases h with h | h
      · left
        simp only [List.tail_cons] at h
        simp [localsOf, flagGiven, h]
      · exact Or.inr h

/-! ## Consequences of the form of the log -/

theorem blockOf_shape {A : Type} (a : Locals) (s : String) (r : Option A) (ok : Bool)
    (h : ¬ (a.print ≠ 0 ∧ r = none)) : (blockOf a s r ok).map Call.shape = block a s := by
  by_cases hi : a.inferTypes = 0 <;> by_cases hp : a.print = 0
  · simp [blockOf, block, Call.shape, hi, hp]
  · cases r with
    | none => exact absurd ⟨hp, rfl⟩ h
    | some ast => simp [blockOf, block, Call.shape, hi, hp]
  · simp [blockOf, block, Call.shape, hi, hp]
  · cases r with
    | none => exact absurd ⟨hp, rfl⟩ h
    | some ast => simp [blockOf, block, Call.shape, hi, hp]

theorem blockOf_shape_null {A : Type} (a : Locals) (s : String) (ok : Bool)
    (hp : a.print ≠ 0) :
    (blockOf a s (none : Option A) ok).map Call.shape ++ [Shape.print] = block a s := by
  by_cases hi : a.inferTypes = 0
  · simp [blockOf, block, Call.shape, hi, hp]
  · simp [blockOf, block, Call.shape, hi, hp]

theorem blockOf_astLinked {A : Type} (a : Locals) (s : String) (r : Option A) (ok : Bool)
    (cur : Option (Option A)) : astLinked cur (blockOf a s r ok) := by
  by_cases hi : a.inferTypes = 0 <;> by_cases hp : a.print = 0 <;> cases r <;>
    simp [blockOf, astLinked, hi, hp]

theorem astLinked_append {A : Type} (t b : List (Call A)) (cur : Option (Option A))
    (ht : astLinked cur t) (hb : ∀ c, astLinked c b) : astLinked cur (t ++ b) := by
  induction t generalizing cur with
  | nil => simpa using hb cur
  | cons c t ih =>
    cases c with
    | parse s d r => exact ih (some r) ht
    | infer_types r m ok => exact ⟨ht.1, ih cur ht.2⟩
    | print r => exact ⟨ht.1, ih cur ht.2⟩

theorem blockOf_parsed {A : Type} (a : Locals) (s : String) (r : Option A) (ok : Bool) :
    parsedSources (blockOf a s r ok) = [s] ∧ parseResults (blockOf a s r ok) = [r]
    ∧ inferModes (blockOf a s r ok)
        = (if a.inferTypes ≠ 0 then [a.inferTypes == 2] else [])
    ∧ printedAsts (blockOf a s r ok)
        = (if a.print ≠ 0 then
            (match r with
              | some ast => [ast]
              | none => [])
          else []) := by
  by_cases hi : a.inferTypes = 0 <;> by_cases hp : a.print = 0 <;> cases r <;>
    simp [blockOf, parsedSources, parseResults, inferModes, printedAsts, hi, hp]

theorem Logged.shape_prefix {A : Type} (a : Locals) (srcs : List String) (ret : Bool)
    (log : List (Call A)) (h : Logged a srcs ret log) :
    log.map Call.shape <+: srcs.flatMap (block a) := by
  induction srcs generalizing log with
  | nil =>
    obtain ⟨_, hl⟩ := h
    subst hl
    exact List.nil_prefix
  | cons s rest ih =>
    obtain ⟨r, ok, h | h⟩ := h
    · obtain ⟨hp, hr, _, hl⟩ := h
      subst hr hl
      rw [List.flatMap_cons, ← blockOf_shape_null a s ok hp, List.append_assoc]
      exact List.prefix_append _ _
    · obtain ⟨hn, log1, hl, h1⟩ := h
      subst hl
      rw [List.flatMap_cons, List.map_append, blockOf_shape a s r ok hn]
      exact (List.prefix_append_right_inj _).2 (ih log1 h1)

theorem Logged.shape_full {A : Type} (a : Locals) (srcs : List String)
    (log : List (Call A)) (h : Logged a srcs true log) :
    log.map Call.shape = srcs.flatMap (block a) := by
  induction srcs generalizing log with
  | nil =>
    obtain ⟨_, hl⟩ := h
    subst hl
    rfl
  | cons s rest ih =>
    obtain ⟨r, ok, h | h⟩ := h
    · obtain ⟨_, _, hf, _⟩ := h
      simp at hf
    · obtain ⟨hn, log1, hl, h1⟩ := h
      subst hl
      rw [List.flatMap_cons, List.map_append, blockOf_shape a s r ok hn, ih log1 h1]

theorem Logged.astLinked {A : Type} (a : Locals) (srcs : List String) (ret : Bool)
    (log : List (Call A)) (h : Logged a srcs ret log) (cur : Option (Option A)) :
    Wast.astLinked cur log := by
  induction srcs generalizing log cur with
  | nil =>
    obtain ⟨_, hl⟩ := h
    subst hl
    trivial
  | cons s rest ih =>
    obtain ⟨r, ok, h | h⟩ := h
    · obtain ⟨_, _, _, hl⟩ := h
      subst hl
      exact blockOf_astLinked a s r ok cur
    · obtain ⟨_, log1, hl, h1⟩ := h
      subst hl
      exact astLinked_append _ _ cur (blockOf_astLinked a s r ok cur) (fun c => ih log1 h1 c)

theorem Logged.parsed {A : Type} (a : Locals) (srcs : List String) (ret : Bool)
    (log : List (Call A)) (h : Logged a srcs ret log) :
    parsedSources log <+: srcs ∧ (ret = true → parsedSources log = srcs) := by
  induction srcs generalizing log with
  | nil =>
    obtain ⟨_, hl⟩ := h
    subst hl
    exact ⟨List.nil_prefix, fun _ => rfl⟩
  | cons s rest ih =>
    obtain ⟨r, ok, h | h⟩ := h
    · obtain ⟨_, _, hf, hl⟩ := h
      subst hl hf
      rw [(blockOf_parsed a s r ok).1]
      exact ⟨List.prefix_append [s] rest, fun h => by simp at h⟩
    · obtain ⟨_, log1, hl, h1⟩ := h
      subst hl
      have e : parsedSources (blockOf a s r ok ++ log1) = s :: parsedSources log1 := by
        have := (blockOf_parsed a s r ok).1
        simp only [parsedSources] at this ⊢
        rw [List.filterMap_append, this]
        rfl
      rw [e]
      obtain ⟨i1, i2⟩ := ih log1 h1
      exact ⟨(List.prefix_cons_inj s).2 i1, fun hr => by rw [i2 hr]⟩

theorem Logged.modes {A : Type} (a : Locals) (srcs : List String) (ret : Bool)
    (log : List (Call A)) (h : Logged a srcs ret log) :
    inferModes log = if a.inferTypes ≠ 0
      then List.replicate (parsedSources log).length (a.inferTypes == 2) else [] := by
  induction srcs generalizing log with
  | nil =>
    obtain ⟨_, hl⟩ := h
    subst hl
    simp [inferModes, parsedSources]
  | cons s rest ih =>
    have key : ∀ (r : Option A) (ok : Bool) (log1 : List (Call A)),
        inferModes log1 = (if a.inferTypes ≠ 0
          then List.replicate (parsedSources log1).length (a.inferTypes == 2) else []) →
        inferModes (blockOf a s r ok ++ log1) = (if a.inferTypes ≠ 0
          then List.replicate (parsedSources (blockOf a s r ok ++ log1)).length
            (a.inferTypes == 2) else []) := by
      intro r ok log1 h1
      have b1 := (blockOf_parsed a s r ok).1
      have b3 := (blockOf_parsed a s r ok).2.2.1
      simp only [inferModes, parsedSources] at b1 b3 h1 ⊢
      rw [List.filterMap_append, List.filterMap_append, b1, b3, h1]
      by_cases hi : a.inferTypes = 0
      · simp [hi]
      · simp [hi, List.replicate_succ]
    obtain ⟨r, ok, h | h⟩ := h
    · obtain ⟨_, _, _, hl⟩ := h
      subst hl
      have := key r ok [] (by simp [inferModes, parsedSources])
      simpa using this
    · obtain ⟨_, log1, hl, h1⟩ := h
      subst hl
      exact key r ok log1 (ih log1 h1)

theorem blockOf_cons {A : Type} (a : Locals) (s : String) (r : Option A) (ok : Bool) :
    ∃ T : List (Call A), blockOf a s r ok = Call.parse s a.debug_level r :: T
      ∧ (∀ c ∈ T, ∀ s1 d1 r1, c ≠ Call.parse s1 d1 r1)
      ∧ (a.print ≠ 0 → ∀ ast, r = some ast →
          ∃ I, T = I ++ [Call.print ast]
            ∧ I = (if a.inferTypes ≠ 0
                then [Call.infer_types (some ast) (a.inferTypes == 2) ok] else []))
      ∧ (a.inferTypes ≠ 0 → ∃ T1, T = Call.infer_types r (a.inferTypes == 2) ok :: T1) := by
  by_cases hi : a.inferTypes = 0 <;> by_cases hp : a.print = 0 <;> cases r <;>
    simp [blockOf, hi, hp]

theorem Logged.null_iff {A : Type} (a : Locals) (srcs : List String) (ret : Bool)
    (log : List (Call A)) (h : Logged a srcs ret log) :
    ret = false ↔ (a.print ≠ 0 ∧ ∃ s d, Call.parse s d none ∈ log) := by
  induction srcs generalizing log with
  | nil =>
    obtain ⟨hr, hl⟩ := h
    subst hl hr
    simp
  | cons s rest ih =>
    obtain ⟨r, ok, h | h⟩ := h
    · obtain ⟨hp, hr, hf, hl⟩ := h
      subst hl hf hr
      obtain ⟨T, hT, _⟩ := blockOf_cons a s (none : Option A) ok
      refine ⟨fun _ => ⟨hp, s, a.debug_level, ?_⟩, fun _ => rfl⟩
      rw [hT]
      exact List.mem_cons_self _ _
    · obtain ⟨hn, log1, hl, h1⟩ := h
      subst hl
      rw [ih log1 h1]
      obtain ⟨T, hT, hno, _⟩ := blockOf_cons a s r ok
      constructor
      · rintro ⟨hp, s1, d1, hm⟩
        exact ⟨hp, s1, d1, List.mem_append_right _ hm⟩
      · rintro ⟨hp, s1, d1, hm⟩
        refine ⟨hp, s1, d1, ?_⟩
        rcases List.mem_append.1 hm with hm | hm
        · exfalso
          rw [hT] at hm
          rcases List.mem_cons.1 hm with e | e
          · injection e with _ _ e3
            exact hn ⟨hp, e3.symm⟩
          · exact hno _ e s1 d1 none rfl
        · exact hm

theorem Logged.printed {A : Type} (a : Locals) (srcs : List String) (ret : Bool)
    (log : List (Call A)) (h : Logged a srcs ret log) (hp : a.print ≠ 0) :
    parseResults log = (printedAsts log).map some ++ (if ret = true then [] else [none]) := by
  induction srcs generalizing log with
  | nil =>
    obtain ⟨hr, hl⟩ := h
    subst hl hr
    simp [parseResults, printedAsts]
  | cons s rest ih =>
    obtain ⟨r, ok, h | h⟩ := h
    · obtain ⟨_, hr, hf, hl⟩ := h
      subst hl hf hr
      rw [(blockOf_parsed a s (none : Option A) ok).2.1,
        (blockOf_parsed a s (none : Option A) ok).2.2.2]
      simp [hp]
    · obtain ⟨hn, log1, hl, h1⟩ := h
      subst hl
      have b2 := (blockOf_parsed a s r ok).2.1
      have b4 := (blockOf_parsed a s r ok).2.2.2
      have i1 := ih log1 h1
      simp only [parseResults, printedAsts] at b2 b4 i1 ⊢
      rw [List.filterMap_append, List.filterMap_append, b2, b4, i1]
      cases r with
      | none => exact absurd ⟨hp, rfl⟩ hn
      | some ast => simp [hp]

theorem Logged.split {A : Type} (a : Locals) (xs ys : List String) (s : String)
    (log : List (Call A)) (h : Logged a (xs ++ s :: ys) true log) :
    ∃ (X Y : List (Call A)) (r : Option A) (ok : Bool),
      log = X ++ blockOf a s r ok ++ Y ∧ Logged a xs true X ∧ Logged a ys true Y
        ∧ ¬ (a.print ≠ 0 ∧ r = none) := by
  induction xs generalizing log with
  | nil =>
    obtain ⟨r, ok, h | h⟩ := h
    · obtain ⟨_, _, hf, _⟩ := h
      simp at hf
    · obtain ⟨hn, log1, hl, h1⟩ := h
      exact ⟨[], log1, r, ok, by simpa using hl, ⟨rfl, rfl⟩, h1, hn⟩
  | cons x xs ih =>
    obtain ⟨r0, ok0, h | h⟩ := h
    · obtain ⟨_, _, hf, _⟩ := h
      simp at hf
    · obtain ⟨hn, log1, hl, h1⟩ := h
      obtain ⟨X, Y, r, ok, e, hX, hY, hr⟩ := ih log1 h1
      refine ⟨blockOf a x r0 ok0 ++ X, Y, r, ok, ?_, ?_, hY, hr⟩
      · rw [hl, e]
        simp [List.append_assoc]
      · exact ⟨r0, ok0, Or.inr ⟨hn, X, rfl, hX⟩⟩

theorem Logged.at_parse {A : Type} (a : Locals) (srcs : List String) (ret : Bool)
    (log : List (Call A)) (h : Logged a srcs ret log) (X Y : List (Call A)) (s : String)
    (d : Int) (r : Option A) (hl : log = X ++ Call.parse s d r :: Y) :
    ∃ (ok : Bool) (Y1 : List (Call A)),
      Call.parse s d r :: Y = blockOf a s r ok ++ Y1 := by
  induction srcs generalizing log X with
  | nil =>
    obtain ⟨_, h0⟩ := h
    rw [h0] at hl
    simp at hl
  | cons s0 rest ih =>
    have key : ∀ (r0 : Option A) (ok0 : Bool) (log1 : List (Call A)),
        log = blockOf a s0 r0 ok0 ++ log1 →
        (∀ X1, log1 = X1 ++ Call.parse s d r :: Y →
          ∃ (ok : Bool) (Y1 : List (Call A)), Call.parse s d r :: Y = blockOf a s r ok ++ Y1) →
        ∃ (ok : Bool) (Y1 : List (Call A)),
          Call.parse s d r :: Y = blockOf a s r ok ++ Y1 := by
      intro r0 ok0 log1 e hrec
      obtain ⟨T, hT, hno, _⟩ := blockOf_cons a s0 r0 ok0
      rw [hl, hT] at e
      cases X with
      | nil =>
        simp only [List.nil_append, List.cons_append, List.cons.injEq, Call.parse.injEq] at e
        obtain ⟨⟨e1, e2, e3⟩, e4⟩ := e
        subst e1 e2 e3
        exact ⟨ok0, log1, by rw [hT, e4]; rfl⟩
      | cons c X1 =>
        simp only [List.cons_append, List.cons.injEq] at e
        obtain ⟨_, e2⟩ := e
        rcases List.append_eq_append_iff.1 e2 with ⟨U, hU1, hU2⟩ | ⟨U, hU1, hU2⟩
        · -- T = X1 ++ U and the parse call heads U ++ log1
          cases U with
          | nil =>
            simp only [List.nil_append] at hU2
            exact hrec [] (by simpa using hU2.symm)
          | cons u U1 =>
            simp only [List.cons_append, List.cons.injEq] at hU2
            exfalso
            have hm : u ∈ T := by rw [hU1]; simp
            exact hno u hm s d r hU2.1.symm
        · exact hrec U hU2
    obtain ⟨r0, ok0, h | h⟩ := h
    · obtain ⟨_, _, _, e⟩ := h
      refine key r0 ok0 [] (by simpa using e) ?_
      intro X1 e1
      simp at e1
    · obtain ⟨_, log1, e, h1⟩ := h
      exact key r0 ok0 log1 e (fun X1 e1 => ih log1 h1 X1 e1)

theorem blockOf_infer_mem {A : Type} (a : Locals) (s : String) (r : Option A) (ok0 : Bool)
    (ast : A) (m ok : Bool) (h : Call.infer_types (some ast) m ok ∈ blockOf a s r ok0) :
    r = some ast ∧ (a.print ≠ 0 → Call.print ast ∈ blockOf a s r ok0) := by
  by_cases hi : a.inferTypes = 0 <;> by_cases hp : a.print = 0 <;> cases r <;>
    simp_all [blockOf]

theorem Logged.infer_printed {A : Type} (a : Locals) (srcs : List String) (ret : Bool)
    (log : List (Call A)) (h : Logged a srcs ret log) (hp : a.print ≠ 0)
    (ast : A) (m ok : Bool) (hm : Call.infer_types (some ast) m ok ∈ log) :
    Call.print ast ∈ log := by
  induction srcs generalizing log with
  | nil =>
    obtain ⟨_, hl⟩ := h
    subst hl
    simp at hm
  | cons s rest ih =>
    obtain ⟨r, ok0, h | h⟩ := h
    · obtain ⟨_, _, _, hl⟩ := h
      subst hl
      exact (blockOf_infer_mem a s r ok0 ast m ok hm).2 hp
    · obtain ⟨_, log1, hl, h1⟩ := h
      subst hl
      rcases List.mem_append.1 hm with hm | hm
      · exact List.mem_append_left _ ((blockOf_infer_mem a s r ok0 ast m ok hm).2 hp)
      · exact List.mem_append_right _ (ih log1 h1 hm)

theorem processSource_withVerdict {W A : Type} (E : Externals W A)
    (verdict : Option A → Bool → W → Bool) (a : Locals) (st : Run W A) (s : String) :
    processSource (withVerdict E verdict) a st s = processSource E a st s := by
  simp [processSource, stepPrint, stepInfer, stepParse, withVerdict]

theorem loop_withVerdict {W A : Type} (E : Externals W A)
    (verdict : Option A → Bool → W → Bool) (a : Locals) (srcs : List String)
    (st : Run W A) :
    loop (withVerdict E verdict) a srcs st = loop E a srcs st := by
  induction srcs generalizing st with
  | nil => rfl
  | cons s rest ih =>
    simp only [loop, processSource_withVerdict]
    cases processSource E a st s with
    | next st1 => exact ih st1
    | nullDeref w1 => rfl

theorem main_withVerdict {W A : Type} (E : Externals W A)
    (verdict : Option A → Bool → W → Bool) (w : W) (argv : List String) :
    main (withVerdict E verdict) w argv = main E w argv := by
  by_cases h : argv.length < 2
  · simp [main, h]
  · simp only [main, h, if_false, loop_withVerdict]
    rfl

theorem callsOf_short {W A : Type} (E : Externals W A) (w : W) (argv : List String)
    (h : argv.length < 2) : callsOf E w argv = [] := by
  simp [callsOf, main, h, Outcome.world]

/-- The calls received by the collaborators during a run of `main`, for any `argv`. -/
theorem main_calls_tail {W A : Type} (E : Externals W A) (w : W) (argv : List String) :
    Logged (localsOf argv.tail) (sourcesOf argv.tail) (main E w argv).returned
      (callsOf E w argv) := by
  cases argv with
  | nil => exact ⟨rfl, rfl⟩
  | cons prog args => exact main_calls E w prog args

theorem main_status_of_exit {W A : Type} (E : Externals W A) (w : W) (argv : List String)
    (status : Int) (w1 : W) (h : main E w argv = Outcome.exit status w1) :
    status = if argv.length < 2 then EXIT_FAILURE else EXIT_SUCCESS := by
  by_cases hl : argv.length < 2
  · simp only [main, hl, if_true, Outcome.exit.injEq] at h
    simp [hl, h.1]
  · simp only [main, hl, if_false] at h
    split at h
    · simp only [Outcome.exit.injEq] at h
      simp [hl, h.1]
    · simp at h

theorem main_returned_exit {W A : Type} (E : Externals W A) (w : W) (argv : List String)
    (h2 : 2 ≤ argv.length) (h : (main E w argv).returned = true) :
    ∃ w1, main E w argv = Outcome.exit EXIT_SUCCESS w1 := by
  cases hm : main E w argv with
  | exit status w1 =>
    have := main_status_of_exit E w argv status w1 hm
    have hl : ¬ argv.length < 2 := by omega
    simp only [hl, if_false] at this
    exact ⟨w1, by rw [this]⟩
  | nullDeref w1 =>
    rw [hm] at h
    simp [Outcome.returned] at h

theorem pipeline_eq (args : List String) :
    pipeline args = (sourcesOf args).flatMap (block (localsOf args)) := by
  unfold pipeline
  congr 1
  funext s
  exact (block_localsOf args s).symm

theorem main_modes {W A : Type} (E : Externals W A) (w : W) (argv : List String)
    (f : String) (h : lastInferFlag argv.tail = some f) :
    inferModes (callsOf E w argv)
        = List.replicate (parsedSources (callsOf E w argv)).length
            (decide (f = "--infer-types-td"))
    ∧ parsedSources (callsOf E w argv) <+: sourcesOf argv.tail
    ∧ ((main E w argv).returned = true →
        inferModes (callsOf E w argv)
          = List.replicate (sourcesOf argv.tail).length (decide (f = "--infer-types-td")))
    ∧ (("--print" ∉ argv.tail ∨ ∀ s d p, (E.parse s d p).2 ≠ none) →
        inferModes (callsOf E w argv)
          = List.replicate (sourcesOf argv.tail).length (decide (f = "--infer-types-td"))) := by
  have hL := main_calls_tail E w argv
  have hm := Logged.modes _ _ _ _ hL
  have hp := Logged.parsed _ _ _ _ hL
  have hi : (localsOf argv.tail).inferTypes = if f = "--infer-types-td" then 2 else 1 :=
    inferTypesOf_of_last argv.tail f h
  have hm2 : inferModes (callsOf E w argv)
      = List.replicate (parsedSources (callsOf E w argv)).length
          (decide (f = "--infer-types-td")) := by
    rw [hm, hi]
    by_cases e : f = "--infer-types-td" <;> simp [e]
  refine ⟨hm2, hp.1, fun hr => ?_, fun hc => ?_⟩
  · rw [hm2, hp.2 hr]
  · rw [hm2, hp.2 (main_returns E w argv hc)]

/-! ## The claims about the driver -/

/-- C1 as stated fails: on `wast --infer-types --print missing b`, with a parser
that leaves `driver.result` null for `missing`, the run reaches the dereference on
line 38 after the calls for `missing`; `infer_types` is called once, not once for
each of the two sources. -/
theorem infer_types_mode_selection_counterexample :
    main demoMissing 0 ["wast", "--infer-types", "--print", "missing", "b"]
        = Outcome.nullDeref 1
    ∧ callsOf demoMissing 0 ["wast", "--infer-types", "--print", "missing", "b"]
        = [Call.parse "missing" 0 none, Call.infer_types none false false]
    ∧ inferModes (callsOf demoMissing 0 ["wast", "--infer-types", "--print", "missing", "b"])
        ≠ List.replicate
            (sourcesOf ["wast", "--infer-types", "--print", "missing", "b"].tail).length false := by
  refine ⟨by decide, by decide, by decide⟩

/-- C1 (amended, mode selection): when the command line contains `--infer-types`
and not `--infer-types-td`, the collaborator `infer_types` receives one call for
each source that is parsed, every one with `mode_is_top_down = false`; the parsed
sources are an initial part of the sources, and all of them, one call each, when
`main` returns, which it does whenever `--print` is absent or no parse leaves
`driver.result` null.  With `--infer-types-td` and not `--infer-types` the same
holds with `mode_is_top_down = true`. -/
theorem infer_types_mode_selection {W A : Type} (E : Externals W A) (w : W)
    (argv : List String) :
    ("--infer-types" ∈ argv.tail → "--infer-types-td" ∉ argv.tail →
        inferModes (callsOf E w argv)
            = List.replicate (parsedSources (callsOf E w argv)).length false
        ∧ parsedSources (callsOf E w argv) <+: sourcesOf argv.tail
        ∧ ((main E w argv).returned = true →
            inferModes (callsOf E w argv)
              = List.replicate (sourcesOf argv.tail).length false)
        ∧ (("--print" ∉ argv.tail ∨ ∀ s d p, (E.parse s d p).2 ≠ none) →
            inferModes (callsOf E w argv)
              = List.replicate (sourcesOf argv.tail).length false))
    ∧ ("--infer-types-td" ∈ argv.tail → "--infer-types" ∉ argv.tail →
        inferModes (callsOf E w argv)
            = List.replicate (parsedSources (callsOf E w argv)).length true
        ∧ parsedSources (callsOf E w argv) <+: sourcesOf argv.tail
        ∧ ((main E w argv).returned = true →
            inferModes (callsOf E w argv)
              = List.replicate (sourcesOf argv.tail).length true)
        ∧ (("--print" ∉ argv.tail ∨ ∀ s d p, (E.parse s d p).2 ≠ none) →
            inferModes (callsOf E w argv)
              = List.replicate (sourcesOf argv.tail).length true)) := by
  constructor
  · intro h1 h2
    have hl := lastInferFlag_of_only argv.tail "--infer-types" "--infer-types-td"
      (Or.inl ⟨rfl, rfl⟩) h1 h2
    simpa using main_modes E w argv _ hl
  · intro h1 h2
    have hl := lastInferFlag_of_only argv.tail "--infer-types-td" "--infer-types"
      (Or.inr ⟨rfl, rfl⟩) h1 h2
    simpa using main_modes E w argv _ hl

/-- Witness of the amended C1 on two command lines whose runs return, with the
calls the collaborators receive on each. -/
theorem infer_types_mode_selection_witness :
    inferModes (callsOf demo 0 ["wast", "--infer-types", "a", "b"])
        = List.replicate (sourcesOf ["wast", "--infer-types", "a", "b"].tail).length false
    ∧ inferModes (callsOf demo 0 ["wast", "a", "--print", "--infer-types-td"])
        = List.replicate
            (sourcesOf ["wast", "a", "--print", "--infer-types-td"].tail).length true
    ∧ callsOf demo 0 ["wast", "--infer-types", "a", "b"]
        = [Call.parse "a" 0 (some 1), Call.infer_types (some 1) false false,
            Call.parse "b" 0 (some 2), Call.infer_types (some 2) false false]
    ∧ callsOf demo 0 ["wast", "a", "--print", "--infer-types-td"]
        = [Call.parse "a" 0 (some 1), Call.infer_types (some 1) true false, Call.print 1] :=
  ⟨((infer_types_mode_selection demo 0 ["wast", "--infer-types", "a", "b"]).1
      (by decide) (by decide)).2.2.2 (Or.inl (by decide)),
    ((infer_types_mode_selection demo 0 ["wast", "a", "--print", "--infer-types-td"]).2
      (by decide) (by decide)).2.2.1 (by decide),
    by decide, by decide⟩

/-- C2 as stated fails: on `wast --infer-types --print a`, with an engine whose
inference fails, the AST of `a` (number `1`) is passed to `infer_types`, which
reports failure, and the same AST is then handed to the printer; so it is not true
that an AST whose inference failed is never printed. -/
theorem failure_isolation_counterexample :
    callsOf demo 0 ["wast", "--infer-types", "--print", "a"]
        = [Call.parse "a" 0 (some 1), Call.infer_types (some 1) false false, Call.print 1]
    ∧ ¬ (∀ (ast : Nat) (m : Bool),
          Call.infer_types (some ast) m false
              ∈ callsOf demo 0 ["wast", "--infer-types", "--print", "a"] →
            Call.print ast ∉ callsOf demo 0 ["wast", "--infer-types", "--print", "a"]) := by
  refine ⟨by decide, fun h => ?_⟩
  exact h 1 false (by decide) (by decide)

/-- C2 (amended): the driver never inspects the outcome of `infer_types`.
Replacing the success value `infer_types` reports by any other changes nothing in
the run.  With `--print` on the command line every AST passed to `infer_types` is
also handed to the printer, whatever inference reported for it, and in a run that
returns the printed ASTs are exactly the ASTs left by the parses.  For any source
`s`, when the run with `s` and a run without `s` both return, whatever the
collaborators of either run do, the calls made for the other sources are the same:
the calls of the run with `s` are the calls of the run without `s` with the calls
for `s` inserted. -/
theorem failure_not_inspected {W A W' A' : Type} (E : Externals W A)
    (E' : Externals W' A') (w : W) (w' : W') (prog : String) (a b : List String)
    (s : String) (hs : isFlag s = false) :
    (∀ verdict : Option A → Bool → W → Bool,
        main (withVerdict E verdict) w (prog :: (a ++ s :: b))
          = main E w (prog :: (a ++ s :: b)))
    ∧ ("--print" ∈ a ++ s :: b →
        (∀ (ast : A) (m ok : Bool),
          Call.infer_types (some ast) m ok ∈ callsOf E w (prog :: (a ++ s :: b)) →
            Call.print ast ∈ callsOf E w (prog :: (a ++ s :: b)))
        ∧ ((main E w (prog :: (a ++ s :: b))).returned = true →
            parseResults (callsOf E w (prog :: (a ++ s :: b)))
              = (printedAsts (callsOf E w (prog :: (a ++ s :: b)))).map some))
    ∧ ((main E w (prog :: (a ++ s :: b))).returned = true →
        (main E' w' (prog :: (a ++ b))).returned = true →
        ∃ X Y : List Shape,
          (callsOf E w (prog :: (a ++ s :: b))).map Call.shape
              = X ++ block (localsOf (a ++ b)) s ++ Y
          ∧ (callsOf E' w' (prog :: (a ++ b))).map Call.shape = X ++ Y) := by
  have hL := main_calls E w prog (a ++ s :: b)
  refine ⟨fun verdict => main_withVerdict E verdict w _, ?_, ?_⟩
  · intro hp
    have hp0 : (localsOf (a ++ s :: b)).print ≠ 0 := by
      simp [localsOf, flagGiven, hp]
    refine ⟨fun ast m ok hm => Logged.infer_printed _ _ _ _ hL hp0 ast m ok hm, ?_⟩
    intro hr
    have := Logged.printed _ _ _ _ hL hp0
    rw [hr] at this
    simpa using this
  · intro hr hr'
    have hs4 := hs
    simp [isFlag] at hs4
    obtain ⟨⟨⟨h1, h2⟩, h3⟩, h4⟩ := hs4
    have hinf : isInferFlag s = false := by simp [isInferFlag, h3, h4]
    have hl : lastInferFlag (a ++ s :: b) = lastInferFlag (a ++ b) := by
      simp [lastInferFlag, List.filter_append, hinf]
    have hloc : block (localsOf (a ++ s :: b)) = block (localsOf (a ++ b)) := by
      funext x
      have h1s : ¬ "--debug" = s := fun e => h1 e.symm
      have h2s : ¬ "--print" = s := fun e => h2 e.symm
      simp [block, localsOf, inferTypesOf, hl, flagGiven, h1s, h2s]
    have hL' := main_calls E' w' prog (a ++ b)
    rw [hr] at hL
    rw [hr'] at hL'
    refine ⟨(sourcesOf a).flatMap (block (localsOf (a ++ b))),
      (sourcesOf b).flatMap (block (localsOf (a ++ b))), ?_, ?_⟩
    · rw [Logged.shape_full _ _ _ hL, hloc]
      simp [sourcesOf, List.filter_append, hs]
    · rw [Logged.shape_full _ _ _ hL']
      simp [sourcesOf, List.filter_append]

/-- Witness of the amended C2 on `wast --infer-types --print a b`, removing `a`. -/
theorem failure_not_inspected_witness :
    (∀ verdict : Option Nat → Bool → Nat → Bool,
        main (withVerdict demo verdict) 0
            ("wast" :: (["--infer-types", "--print"] ++ "a" :: ["b"]))
          = main demo 0 ("wast" :: (["--infer-types", "--print"] ++ "a" :: ["b"])))
    ∧ Call.print 1 ∈ callsOf demo 0 ("wast" :: (["--infer-types", "--print"] ++ "a" :: ["b"]))
    ∧ parseResults (callsOf demo 0 ("wast" :: (["--infer-types", "--print"] ++ "a" :: ["b"])))
        = (printedAsts
            (callsOf demo 0 ("wast" :: (["--infer-types", "--print"] ++ "a" :: ["b"])))).map some
    ∧ ∃ X Y : List Shape,
        (callsOf demo 0 ("wast" :: (["--infer-types", "--print"] ++ "a" :: ["b"]))).map
            Call.shape
            = X ++ block (localsOf (["--infer-types", "--print"] ++ ["b"])) "a" ++ Y
        ∧ (callsOf demoMissing 7 ("wast" :: (["--infer-types", "--print"] ++ ["b"]))).map
            Call.shape = X ++ Y :=
  ⟨(failure_not_inspected demo demoMissing 0 7 "wast" ["--infer-types", "--print"] ["b"] "a"
      (by decide)).1,
    ((failure_not_inspected demo demoMissing 0 7 "wast" ["--infer-types", "--print"] ["b"] "a"
      (by decide)).2.1 (by decide)).1 1 false false (by decide),
    ((failure_not_inspected demo demoMissing 0 7 "wast" ["--infer-types", "--print"] ["b"] "a"
      (by decide)).2.1 (by decide)).2 (by decide),
    (failure_not_inspected demo demoMissing 0 7 "wast" ["--infer-types", "--print"] ["b"] "a"
      (by decide)).2.2 (by decide) (by decide)⟩

/-- C3 as stated fails: on `wast --print missing b`, with a parser that leaves
`driver.result` null for `missing`, the only call is the parse of `missing`; the
run ends at the dereference on line 38, so `missing` is not printed and `b` is
neither parsed nor printed. -/
theorem per_source_pipeline_counterexample :
    main demoMissing 0 ["wast", "--print", "missing", "b"] = Outcome.nullDeref 1
    ∧ callsOf demoMissing 0 ["wast", "--print", "missing", "b"]
        = [Call.parse "missing" 0 none]
    ∧ (callsOf demoMissing 0 ["wast", "--print", "missing", "b"]).map Call.shape
        ≠ pipeline ["wast", "--print", "missing", "b"].tail := by
  refine ⟨by decide, by decide, by decide⟩

/-- C3 (amended, per-source pipeline): in every run in which `main` returns the
calls received by the collaborators are, for each source in command-line order,
`parse(source, debug_level)`, then one `infer_types` call exactly when an
inference flag was given, then one `print` call exactly when `--print` was given;
`main` returns whenever `--print` is absent or no parse leaves `driver.result`
null.  In every run the calls made are an initial part of that sequence, every
`infer_types` call receives the pointer left in `driver.result` by the latest
parse and every `print` call is made on the AST that pointer points to.  The calls
are those of the run against `E` itself: the logging changes nothing. -/
theorem per_source_pipeline {W A : Type} (E : Externals W A) (w : W)
    (argv : List String) :
    ((main E w argv).returned = true →
        (callsOf E w argv).map Call.shape = pipeline argv.tail)
    ∧ (("--print" ∉ argv.tail ∨ ∀ s d p, (E.parse s d p).2 ≠ none) →
        (main E w argv).returned = true)
    ∧ (callsOf E w argv).map Call.shape <+: pipeline argv.tail
    ∧ astLinked none (callsOf E w argv)
    ∧ (main (logged E) (w, []) argv).map Prod.fst = main E w argv := by
  have hL := main_calls_tail E w argv
  refine ⟨fun hr => ?_, main_returns E w argv, ?_, Logged.astLinked _ _ _ _ hL none,
    main_logged E w [] argv⟩
  · rw [hr] at hL
    rw [pipeline_eq]
    exact Logged.shape_full _ _ _ hL
  · rw [pipeline_eq]
    exact Logged.shape_prefix _ _ _ _ hL

/-- Witness of the amended C3 on `wast --debug a --infer-types --print b`, with the
calls the collaborators receive. -/
theorem per_source_pipeline_witness :
    (callsOf demo 0 ["wast", "--debug", "a", "--infer-types", "--print", "b"]).map Call.shape
        = pipeline ["wast", "--debug", "a", "--infer-types", "--print", "b"].tail
    ∧ (main demo 0 ["wast", "--debug", "a", "--infer-types", "--print", "b"]).returned = true
    ∧ callsOf demo 0 ["wast", "--debug", "a", "--infer-types", "--print", "b"]
        = [Call.parse "a" 1 (some 1), Call.infer_types (some 1) false false, Call.print 1,
            Call.parse "b" 1 (some 2), Call.infer_types (some 2) false false, Call.print 2]
    ∧ main demo 0 ["wast", "--debug", "a", "--infer-types", "--print", "b"]
        = Outcome.exit EXIT_SUCCESS 2 :=
  ⟨(per_source_pipeline demo 0 ["wast", "--debug", "a", "--infer-types", "--print", "b"]).1
      (by decide),
    (per_source_pipeline demo 0 ["wast", "--debug", "a", "--infer-types", "--print", "b"]).2.1
      (Or.inr (fun s d p => by simp [demo])),
    by decide, by decide⟩

/-- C4 (file/flag selection): the sources are the arguments `argv[1..]` that are
not exactly one of the four flags, in order and with duplicates: they are what the
argument loop collects in `sources`, and `--printx` is among them.  The sources
passed to `parse` are an initial part of that list, and the whole list when `main`
returns. -/
theorem source_selection {W A : Type} (E : Externals W A) (w : W) (argv : List String) :
    (scanArgs argv).sources
        = argv.tail.filter (fun a => decide (a ≠ "--debug" ∧ a ≠ "--print"
            ∧ a ≠ "--infer-types" ∧ a ≠ "--infer-types-td"))
    ∧ parsedSources (callsOf E w argv)
        <+: argv.tail.filter (fun a => decide (a ≠ "--debug" ∧ a ≠ "--print"
            ∧ a ≠ "--infer-types" ∧ a ≠ "--infer-types-td"))
    ∧ ((main E w argv).returned = true →
        parsedSources (callsOf E w argv)
          = argv.tail.filter (fun a => decide (a ≠ "--debug" ∧ a ≠ "--print"
              ∧ a ≠ "--infer-types" ∧ a ≠ "--infer-types-td")))
    ∧ (∀ (prog : String) (pre post : List String),
        "--printx" ∈ (scanArgs (prog :: (pre ++ "--printx" :: post))).sources
        ∧ ((main E w (prog :: (pre ++ "--printx" :: post))).returned = true →
            "--printx" ∈ parsedSources (callsOf E w (prog :: (pre ++ "--printx" :: post))))) := by
  have hx : isFlag "--printx" = false := by decide
  refine ⟨?_, ?_, ?_, ?_⟩
  · cases argv with
    | nil => rfl
    | cons prog args =>
      rw [scanArgs_cons, List.tail_cons, ← sourcesOf_eq_filter]
  · rw [← sourcesOf_eq_filter]
    exact (Logged.parsed _ _ _ _ (main_calls_tail E w argv)).1
  · intro hr
    rw [← sourcesOf_eq_filter]
    exact (Logged.parsed _ _ _ _ (main_calls_tail E w argv)).2 hr
  · intro prog pre post
    constructor
    · rw [scanArgs_cons]
      simp [sourcesOf, List.filter_append, hx]
    · intro hr
      rw [(Logged.parsed _ _ _ _ (main_calls E w prog _)).2 hr]
      simp [sourcesOf, List.filter_append, hx]

/-- Witness of C4 on `wast --print --printx a --debug a`, with the calls the
collaborators receive. -/
theorem source_selection_witness :
    parsedSources (callsOf demo 0 ["wast", "--print", "--printx", "a", "--debug", "a"])
        = ["wast", "--print", "--printx", "a", "--debug", "a"].tail.filter
            (fun a => decide (a ≠ "--debug" ∧ a ≠ "--print"
              ∧ a ≠ "--infer-types" ∧ a ≠ "--infer-types-td"))
    ∧ "--printx" ∈ parsedSources (callsOf demo 0 ("wast" :: ([] ++ "--printx" :: ["a"])))
    ∧ callsOf demo 0 ["wast", "--print", "--printx", "a", "--debug", "a"]
        = [Call.parse "--printx" 1 (some 1), Call.print 1, Call.parse "a" 1 (some 2),
            Call.print 2, Call.parse "a" 1 (some 3), Call.print 3] :=
  ⟨(source_selection demo 0 ["wast", "--print", "--printx", "a", "--debug", "a"]).2.2.1
      (by decide),
    ((source_selection demo 0 ["wast"]).2.2.2 "wast" [] ["a"]).2 (by decide),
    by decide⟩

/-- C7 as stated fails: on `wast --print missing` and on `wast --print a missing`,
with a parser that produces no AST for `missing` and so leaves `driver.result`
null (the initial value, and the value line 41 stores after printing `a`), `argc`
is at least 2 and `main` does not return `EXIT_SUCCESS`: the run ends at the
dereference of the null `driver.result` on line 38. -/
theorem exit_status_counterexample :
    2 ≤ ["wast", "--print", "missing"].length
    ∧ main demoMissing 0 ["wast", "--print", "missing"] = Outcome.nullDeref 1
    ∧ (¬ ∃ w1, main demoMissing 0 ["wast", "--print", "missing"]
        = Outcome.exit EXIT_SUCCESS w1)
    ∧ main demoMissing 0 ["wast", "--print", "a", "missing"] = Outcome.nullDeref 2
    ∧ callsOf demoMissing 0 ["wast", "--print", "a", "missing"]
        = [Call.parse "a" 0 (some 1), Call.print 1, Call.parse "missing" 0 none] := by
  refine ⟨by decide, by decide, ?_, by decide, by decide⟩
  rintro ⟨w1, h⟩
  have e : main demoMissing 0 ["wast", "--print", "missing"] = Outcome.nullDeref 1 := by
    decide
  rw [e] at h
  exact Outcome.noConfusion h

/-- C7 (amended, exit status): when `argc < 2`, `main` returns `EXIT_FAILURE`
without any call and leaves the world untouched, and whenever `main` returns, the
status is `EXIT_FAILURE` exactly when `argc < 2`.  For `argc >= 2`, whatever the
collaborators do, `main` returns `EXIT_SUCCESS` in every run in which no print is
attempted on a null `driver.result`, that is unless `--print` is given and some
parse leaves `driver.result` null: in particular when `--print` is absent, when no
parse leaves `driver.result` null, and when every argument is a flag (no call is
made then). -/
theorem exit_status {W A : Type} (E : Externals W A) (w : W) (argv : List String) :
    (argv.length < 2 →
        main E w argv = Outcome.exit EXIT_FAILURE w ∧ callsOf E w argv = [])
    ∧ (∀ (status : Int) (w1 : W), main E w argv = Outcome.exit status w1 →
        (status = EXIT_FAILURE ↔ argv.length < 2))
    ∧ (2 ≤ argv.length →
        ¬ ("--print" ∈ argv.tail ∧ ∃ s d, Call.parse s d none ∈ callsOf E w argv) →
        ∃ w1, main E w argv = Outcome.exit EXIT_SUCCESS w1)
    ∧ (2 ≤ argv.length →
        ("--print" ∉ argv.tail ∨ ∀ s d p, (E.parse s d p).2 ≠ none) →
        ∃ w1, main E w argv = Outcome.exit EXIT_SUCCESS w1)
    ∧ (2 ≤ argv.length → (∀ a ∈ argv.tail, isFlag a = true) →
        main E w argv = Outcome.exit EXIT_SUCCESS (E.ctor w).1 ∧ callsOf E w argv = []) := by
  have hne : EXIT_SUCCESS ≠ EXIT_FAILURE := by decide
  refine ⟨?_, ?_, ?_, ?_, ?_⟩
  · intro h
    exact ⟨by simp [main, h], callsOf_short E w argv h⟩
  · intro status w1 h
    have hs := main_status_of_exit E w argv status w1 h
    by_cases hl : argv.length < 2
    · simp [hl] at hs
      simp [hl, hs]
    · simp [hl] at hs
      simp [hl, hs, hne]
  · intro h2 hn
    apply main_returned_exit E w argv h2
    have hL := main_calls_tail E w argv
    have hi := Logged.null_iff _ _ _ _ hL
    cases hr : (main E w argv).returned with
    | true => rfl
    | false =>
      exfalso
      obtain ⟨hp, hex⟩ := hi.1 hr
      apply hn
      refine ⟨?_, hex⟩
      by_contra hc
      exact hp (by simp [localsOf, flagGiven, hc])
  · intro h2 hc
    exact main_returned_exit E w argv h2 (main_returns E w argv hc)
  · intro h2 hall
    cases argv with
    | nil => simp at h2
    | cons prog args =>
      cases args with
      | nil => simp at h2
      | cons x rest =>
        have hsrc : sourcesOf (x :: rest) = [] := by
          simp only [sourcesOf, List.filter_eq_nil_iff]
          intro a ha
          simp [hall a (by simpa using ha)]
        constructor
        · rw [main_cons, hsrc]
          rfl
        · unfold callsOf
          rw [main_cons, hsrc]
          rfl

/-- Witness of the amended C7 on `wast` alone, on `wast --print a`, on `wast a b`
and on `wast --print --debug`. -/
theorem exit_status_witness :
    (main demo 0 ["wast"] = Outcome.exit EXIT_FAILURE 0 ∧ callsOf demo 0 ["wast"] = [])
    ∧ (EXIT_SUCCESS = EXIT_FAILURE ↔ ["wast", "--print", "a"].length < 2)
    ∧ (∃ w1, main demoMissing 0 ["wast", "--print", "a"] = Outcome.exit EXIT_SUCCESS w1)
    ∧ (∃ w1, main demoMissing 0 ["wast", "missing", "b"] = Outcome.exit EXIT_SUCCESS w1)
    ∧ (main demo 0 ["wast", "--print", "--debug"] = Outcome.exit EXIT_SUCCESS (demo.ctor 0).1
        ∧ callsOf demo 0 ["wast", "--print", "--debug"] = []) :=
  ⟨(exit_status demo 0 ["wast"]).1 (by decide),
    (exit_status demo 0 ["wast", "--print", "a"]).2.1 EXIT_SUCCESS 1 (by decide),
    (exit_status demoMissing 0 ["wast", "--print", "a"]).2.2.1 (by decide)
      (by
        rintro ⟨_, s, d, hm⟩
        have e : callsOf demoMissing 0 ["wast", "--print", "a"]
            = [Call.parse "a" 0 (some 1), Call.print 1] := by decide
        rw [e] at hm
        simp at hm),
    (exit_status demoMissing 0 ["wast", "missing", "b"]).2.2.2.1 (by decide)
      (Or.inl (by decide)),
    (exit_status demo 0 ["wast", "--print", "--debug"]).2.2.2.2 (by decide) (by decide)⟩

theorem main_move {W A : Type} (E : Externals W A) (w : W) (prog f : String)
    (a b c d : List String) (hf : f = "--debug" ∨ f = "--print") (h : a ++ b = c ++ d) :
    main E w (prog :: (a ++ f :: b)) = main E w (prog :: (c ++ f :: d)) := by
  have e : localsOf (a ++ f :: b) = localsOf (c ++ f :: d) := by
    rw [localsOf_insert a b f hf, localsOf_insert c d f hf, h]
  have hflag : isFlag f = true := by rcases hf with e | e <;> subst e <;> rfl
  have es : sourcesOf (a ++ f :: b) = sourcesOf (c ++ f :: d) := by
    rw [sourcesOf_insert a b f hflag, sourcesOf_insert c d f hflag, h]
  have hmain : ∀ args : List String, f ∈ args →
      main E w (prog :: args) =
        (match loop E (localsOf args) (sourcesOf args)
            { world := (E.ctor w).1, result := (E.ctor w).2 } with
          | Step.next st => Outcome.exit EXIT_SUCCESS st.world
          | Step.nullDeref w1 => Outcome.nullDeref w1) := by
    intro args hm
    cases args with
    | nil => simp at hm
    | cons x rest => exact main_cons E w prog x rest
  rw [hmain (a ++ f :: b) (by simp), hmain (c ++ f :: d) (by simp), e, es]

/-- C8 (flags are position-independent): taking a `--debug` or `--print` flag out
of one position of the command line and putting it at any other leaves the whole
run unchanged (how it ends, the world, and the calls the collaborators receive
with all their arguments).  A flag that comes after a source applies to that
source: the parse call of a source followed by `--debug` gets `debug_level = 1`,
and the parse call of a source followed by `--print` that leaves an AST is
followed, after the inference call on that AST if there is one, by the print call
on that very AST; when `main` returns, that parse call is there, right after the
calls for the sources before it. -/
theorem flag_position_independent {W A : Type} (E : Externals W A) (w : W)
    (prog f : String) (a b c d : List String)
    (hf : f = "--debug" ∨ f = "--print") (h : a ++ b = c ++ d) :
    main E w (prog :: (a ++ f :: b)) = main E w (prog :: (c ++ f :: d))
    ∧ callsOf E w (prog :: (a ++ f :: b)) = callsOf E w (prog :: (c ++ f :: d))
    ∧ ∀ (s : String) (pre post : List String), isFlag s = false →
        (∀ (X Y : List (Call A)) (dl : Int) (r : Option A),
          callsOf E w (prog :: (pre ++ s :: post)) = X ++ Call.parse s dl r :: Y →
            ("--debug" ∈ post → dl = 1)
            ∧ ("--print" ∈ post → ∀ ast, r = some ast →
                ∃ (I Y1 : List (Call A)), Y = I ++ Call.print ast :: Y1
                  ∧ ∀ x ∈ I, ∃ m ok, x = Call.infer_types (some ast) m ok))
        ∧ ((main E w (prog :: (pre ++ s :: post))).returned = true →
            ∃ (X Y : List (Call A)) (dl : Int) (r : Option A),
              callsOf E w (prog :: (pre ++ s :: post)) = X ++ Call.parse s dl r :: Y
                ∧ parsedSources X = sourcesOf pre) := by
  refine ⟨main_move E w prog f a b c d hf h, ?_, ?_⟩
  · unfold callsOf
    rw [main_move (logged E) (w, []) prog f a b c d hf h]
  · intro s pre post hs
    have hL := main_calls E w prog (pre ++ s :: post)
    constructor
    · intro X Y dl r hc
      obtain ⟨ok, Y1, hb⟩ := Logged.at_parse _ _ _ _ hL X Y s dl r hc
      obtain ⟨T, hT, _, hpr, _⟩ := blockOf_cons (localsOf (pre ++ s :: post)) s r ok
      rw [hT] at hb
      simp only [List.cons_append, List.cons.injEq, Call.parse.injEq, true_and] at hb
      obtain ⟨⟨hd, _⟩, hY⟩ := hb
      constructor
      · intro hdbg
        rw [hd]
        simp [localsOf, flagGiven, hdbg]
      · intro hp ast hr
        have hp0 : (localsOf (pre ++ s :: post)).print ≠ 0 := by
          simp [localsOf, flagGiven, hp]
        obtain ⟨I, hI, hI2⟩ := hpr hp0 ast hr
        refine ⟨I, Y1, ?_, ?_⟩
        · rw [hY, hI]
          simp
        · intro x hx
          rw [hI2] at hx
          by_cases hi : (localsOf (pre ++ s :: post)).inferTypes = 0
          · simp [hi] at hx
          · simp only [ne_eq, hi, not_false_eq_true, if_true, List.mem_singleton] at hx
            exact ⟨_, _, hx⟩
    · intro hr
      rw [hr] at hL
      have hsrc : sourcesOf (pre ++ s :: post) = sourcesOf pre ++ s :: sourcesOf post := by
        simp [sourcesOf, List.filter_append, hs]
      rw [hsrc] at hL
      obtain ⟨X, Y, r, ok, e, hX, _, _⟩ := Logged.split _ _ _ _ _ hL
      obtain ⟨T, hT, _⟩ := blockOf_cons (localsOf (pre ++ s :: post)) s r ok
      refine ⟨X, T ++ Y, (localsOf (pre ++ s :: post)).debug_level, r, ?_,
        (Logged.parsed _ _ _ _ hX).2 rfl⟩
      rw [e, hT]
      simp

/-- Witness of C8: `wast a --print b --debug` against `wast --print a b --debug`, and
the flags after the source `a` in `wast a --print --debug`. -/
theorem flag_position_independent_witness :
    (main demo 0 ("wast" :: (["a"] ++ "--print" :: ["b", "--debug"]))
        = main demo 0 ("wast" :: ([] ++ "--print" :: ["a", "b", "--debug"])))
    ∧ (callsOf demo 0 ("wast" :: (["a"] ++ "--print" :: ["b", "--debug"]))
        = callsOf demo 0 ("wast" :: ([] ++ "--print" :: ["a", "b", "--debug"])))
    ∧ (callsOf demo 0 ("wast" :: ([] ++ "a" :: ["--print", "--debug"]))
        = [] ++ Call.parse "a" 1 (some 1) :: [Call.print 1])
    ∧ (1 : Int) = 1
    ∧ (∃ (I Y1 : List (Call Nat)), [Call.print 1] = I ++ Call.print 1 :: Y1
        ∧ ∀ x ∈ I, ∃ m ok, x = Call.infer_types (some 1) m ok)
    ∧ (∃ (X Y : List (Call Nat)) (dl : Int) (r : Option Nat),
        callsOf demo 0 ("wast" :: ([] ++ "a" :: ["--print", "--debug"]))
            = X ++ Call.parse "a" dl r :: Y
          ∧ parsedSources X = sourcesOf []) :=
  ⟨(flag_position_independent demo 0 "wast" "--print" ["a"] ["b", "--debug"] []
      ["a", "b", "--debug"] (Or.inr rfl) (by decide)).1,
    (flag_position_independent demo 0 "wast" "--print" ["a"] ["b", "--debug"] []
      ["a", "b", "--debug"] (Or.inr rfl) (by decide)).2.1,
    (by decide),
    ((((flag_position_independent demo 0 "wast" "--print" ["a"] ["b", "--debug"] []
      ["a", "b", "--debug"] (Or.inr rfl) (by decide)).2.2 "a" [] ["--print", "--debug"]
        (by decide)).1 [] [Call.print 1] 1 (some 1) (by decide)).1 (by decide)),
    ((((flag_position_independent demo 0 "wast" "--print" ["a"] ["b", "--debug"] []
      ["a", "b", "--debug"] (Or.inr rfl) (by decide)).2.2 "a" [] ["--print", "--debug"]
        (by decide)).1 [] [Call.print 1] 1 (some 1) (by decide)).2 (by decide) 1 rfl),
    ((flag_position_independent demo 0 "wast" "--print" ["a"] ["b", "--debug"] []
      ["a", "b", "--debug"] (Or.inr rfl) (by decide)).2.2 "a" [] ["--print", "--debug"]
        (by decide)).2 (by decide)⟩

/-- C9 as stated fails: on `wast --infer-types --infer-types-td --print missing b`,
with a parser that leaves `driver.result` null for `missing`, the run reaches the
dereference on line 38 after the calls for `missing`; inference runs once, not
once for each of the two sources. -/
theorem last_inference_flag_wins_counterexample :
    main demoMissing 0
        ["wast", "--infer-types", "--infer-types-td", "--print", "missing", "b"]
        = Outcome.nullDeref 1
    ∧ callsOf demoMissing 0
        ["wast", "--infer-types", "--infer-types-td", "--print", "missing", "b"]
        = [Call.parse "missing" 0 none, Call.infer_types none true false]
    ∧ inferModes (callsOf demoMissing 0
        ["wast", "--infer-types", "--infer-types-td", "--print", "missing", "b"])
        ≠ List.replicate
            (sourcesOf ["--infer-types", "--infer-types-td", "--print", "missing", "b"]).length
            true := by
  refine ⟨by decide, by decide, by decide⟩

/-- C9 (amended, last inference flag wins): when both inference flags occur on the
command line, `infer_types` receives one call for each source that is parsed, and
every call gets `mode_is_top_down = true` exactly when the last inference flag is
`--infer-types-td`; the parsed sources are an initial part of the sources, and all
of them, one call each, when `main` returns, which it does whenever `--print` is
absent or no parse leaves `driver.result` null. -/
theorem last_inference_flag_wins {W A : Type} (E : Externals W A) (w : W)
    (prog f : String) (pre post : List String)
    (hf : isInferFlag f = true) (hpost : ∀ x ∈ post, isInferFlag x = false)
    (_h1 : "--infer-types" ∈ pre ++ f :: post)
    (_h2 : "--infer-types-td" ∈ pre ++ f :: post) :
    inferModes (callsOf E w (prog :: (pre ++ f :: post)))
        = List.replicate (parsedSources (callsOf E w (prog :: (pre ++ f :: post)))).length
            (decide (f = "--infer-types-td"))
    ∧ parsedSources (callsOf E w (prog :: (pre ++ f :: post))) <+: sourcesOf (pre ++ f :: post)
    ∧ ((main E w (prog :: (pre ++ f :: post))).returned = true →
        inferModes (callsOf E w (prog :: (pre ++ f :: post)))
          = List.replicate (sourcesOf (pre ++ f :: post)).length
              (decide (f = "--infer-types-td")))
    ∧ (("--print" ∉ pre ++ f :: post ∨ ∀ s d p, (E.parse s d p).2 ≠ none) →
        inferModes (callsOf E w (prog :: (pre ++ f :: post)))
          = List.replicate (sourcesOf (pre ++ f :: post)).length
              (decide (f = "--infer-types-td"))) :=
  main_modes E w (prog :: (pre ++ f :: post)) f (lastInferFlag_append pre post f hf hpost)

/-- Witness of the amended C9 on `wast --infer-types-td a --infer-types b --print`,
with the calls the collaborators receive. -/
theorem last_inference_flag_wins_witness :
    inferModes (callsOf demo 0
        ("wast" :: (["--infer-types-td", "a"] ++ "--infer-types" :: ["b", "--print"])))
      = List.replicate
          (sourcesOf (["--infer-types-td", "a"] ++ "--infer-types" :: ["b", "--print"])).length
          (decide ("--infer-types" = "--infer-types-td"))
    ∧ callsOf demo 0
        ("wast" :: (["--infer-types-td", "a"] ++ "--infer-types" :: ["b", "--print"]))
      = [Call.parse "a" 0 (some 1), Call.infer_types (some 1) false false, Call.print 1,
          Call.parse "b" 0 (some 2), Call.infer_types (some 2) false false, Call.print 2]
    ∧ callsOf demo 0 ["wast", "--infer-types", "a", "--infer-types-td"]
      = [Call.parse "a" 0 (some 1), Call.infer_types (some 1) true false] :=
  ⟨(last_inference_flag_wins demo 0 "wast" "--infer-types" ["--infer-types-td", "a"]
      ["b", "--print"] (by decide) (by decide) (by decide) (by decide)).2.2.2
      (Or.inr (fun s d p => by simp [demo])),
    by decide, by decide⟩

end Wast

/-! ## The occurs check of the unification engine -/

namespace TI

theorem Extends.trans {s s1 s2 : Substitution} (h1 : Extends s s1) (h2 : Extends s1 s2) :
    Extends s s2 := by
  induction h2 with
  | refl => exact h1
  | bind s3 v t _ ho ih => exact Extends.bind s s3 v t ih ho

theorem bindVar_ok (v : Nat) (t : Ty) (s s1 : Substitution)
    (h : bindVar v t s = Except.ok s1) : Extends s s1 := by
  unfold bindVar at h
  cases ho : occurs v t with
  | true => simp [ho] at h
  | false =>
    simp only [ho, Bool.false_eq_true, if_false, Except.ok.injEq] at h
    rw [← h]
    exact Extends.bind s s v t (Extends.refl s) ho

theorem unifyArgs_ok (u : Ty → Ty → Substitution → Option (Except TypeError Substitution))
    (hu : ∀ a b s s1, u a b s = some (Except.ok s1) → Extends s s1)
    (as bs : List Ty) (s s1 : Substitution)
    (h : unifyArgs u as bs s = some (Except.ok s1)) : Extends s s1 := by
  induction as generalizing bs s with
  | nil =>
    simp only [unifyArgs, Option.some.injEq, Except.ok.injEq] at h
    rw [← h]; exact Extends.refl s
  | cons a as ih =>
    cases bs with
    | nil =>
      simp only [unifyArgs, Option.some.injEq, Except.ok.injEq] at h
      rw [← h]; exact Extends.refl s
    | cons b bs =>
      simp only [unifyArgs] at h
      cases hr : u a b s with
      | none => rw [hr] at h; simp at h
      | some r =>
        cases r with
        | error e => rw [hr] at h; simp at h
        | ok s2 =>
          rw [hr] at h
          exact Extends.trans (hu a b s s2 hr) (ih bs s2 h)

theorem unify_ok (fuel : Nat) (t1 t2 : Ty) (s s1 : Substitution)
    (h : unify fuel t1 t2 s = some (Except.ok s1)) : Extends s s1 := by
  induction fuel generalizing t1 t2 s s1 with
  | zero => simp [unify] at h
  | succ fuel ih =>
    unfold unify at h
    split at h
    · split at h
      · simp only [Option.some.injEq, Except.ok.injEq] at h
        rw [← h]; exact Extends.refl s
      · simp only [Option.some.injEq] at h
        exact bindVar_ok _ _ _ _ h
    · simp only [Option.some.injEq] at h
      exact bindVar_ok _ _ _ _ h
    · simp only [Option.some.injEq] at h
      exact bindVar_ok _ _ _ _ h
    · split at h
      · simp at h
      · exact unifyArgs_ok (unify fuel) (fun a b s s1 => ih a b s s1) _ _ _ _ h

theorem applyOnce_unbound (s : Substitution) (v : Nat) (h : s.lookup v = none) :
    applyOnce s (Ty.Function (Ty.TypeVar v) Ty.Int) = Ty.Function (Ty.TypeVar v) Ty.Int
      ∧ applyOnce s (Ty.TypeVar v) = Ty.TypeVar v := by
  simp [applyOnce, applyOnceList, Ty.Function, Ty.Int, h]

theorem apply_unbound (s : Substitution) (v : Nat) (h : s.lookup v = none) :
    apply s (Ty.Function (Ty.TypeVar v) Ty.Int) = Ty.Function (Ty.TypeVar v) Ty.Int
      ∧ apply s (Ty.TypeVar v) = Ty.TypeVar v := by
  unfold apply
  exact ⟨Function.iterate_fixed (applyOnce_unbound s v h).1 _,
    Function.iterate_fixed (applyOnce_unbound s v h).2 _⟩

theorem lookup_some_mem (s : Substitution) (v : Nat) (t : Ty)
    (h : s.lookup v = some t) : (v, t) ∈ s := by
  induction s with
  | nil => simp at h
  | cons p s ih =>
    obtain ⟨k, r⟩ := p
    by_cases e : v = k
    · subst e
      simp [List.lookup] at h
      simp [h]
    · have : (v == k) = false := by simpa using e
      simp only [List.lookup, this] at h
      exact List.mem_cons_of_mem _ (ih h)

theorem lookup_none_not_mem (s : Substitution) (v : Nat)
    (h : s.lookup v = none) : ∀ q ∈ s, q.1 ≠ v := by
  induction s with
  | nil => simp
  | cons p s ih =>
    obtain ⟨k, r⟩ := p
    by_cases e : v = k
    · subst e
      simp [List.lookup] at h
    · have hb : (v == k) = false := by simpa using e
      simp only [List.lookup, hb] at h
      intro q hq
      rcases List.mem_cons.1 hq with e1 | e1
      · subst e1; exact fun e2 => e e2.symm
      · exact ih h q e1

mutual
theorem applyOnce_resolved (s : Substitution) (hs : Idempotent s) :
    (t : Ty) → Resolved s (applyOnce s t)
  | Ty.TypeVar v => by
    intro q hq
    cases h : s.lookup v with
    | none =>
      simp only [applyOnce, h, occurs]
      simpa using lookup_none_not_mem s v h q hq
    | some r =>
      simp only [applyOnce, h]
      exact hs (v, r) (lookup_some_mem s v r h) q hq
  | Ty.Constructor n args => by
    intro q hq
    simp only [applyOnce, occurs]
    exact applyOnceList_resolved s hs args q hq
theorem applyOnceList_resolved (s : Substitution) (hs : Idempotent s) :
    (ts : List Ty) → ∀ q ∈ s, occursList q.1 (applyOnceList s ts) = false
  | [] => by intro q _; simp [applyOnceList, occursList]
  | t :: ts => by
    intro q hq
    simp only [applyOnceList, occursList, Bool.or_eq_false_iff]
    exact ⟨applyOnce_resolved s hs t q hq, applyOnceList_resolved s hs ts q hq⟩
end


theorem lookup_eq_none (s : Substitution) (v : Nat) (h : ∀ q ∈ s, q.1 ≠ v) :
    s.lookup v = none := by
  cases hl : s.lookup v with
  | none => rfl
  | some r => exact absurd rfl (h (v, r) (lookup_some_mem s v r hl))

mutual
theorem applyOnce_fixed (s : Substitution) :
    (t : Ty) → Resolved s t → applyOnce s t = t
  | Ty.TypeVar v => by
    intro h
    have : s.lookup v = none := by
      apply lookup_eq_none
      intro q hq
      simpa [occurs] using h q hq
    simp [applyOnce, this]
  | Ty.Constructor n args => by
    intro h
    simp only [applyOnce]
    rw [applyOnceList_fixed s args (fun q hq => by simpa [occurs] using h q hq)]
theorem applyOnceList_fixed (s : Substitution) :
    (ts : List Ty) → (∀ q ∈ s, occursList q.1 ts = false) → applyOnceList s ts = ts
  | [] => by intro _; rfl
  | t :: ts => by
    intro h
    simp only [applyOnceList]
    rw [applyOnce_fixed s t (fun q hq => by
        have := h q hq
        simp only [occursList, Bool.or_eq_false_iff] at this
        exact this.1),
      applyOnceList_fixed s ts (fun q hq => by
        have := h q hq
        simp only [occursList, Bool.or_eq_false_iff] at this
        exact this.2)]
end

theorem apply_resolved (s : Substitution) (hs : Idempotent s) (t : Ty) :
    Resolved s (apply s t) := by
  unfold apply
  cases hl : s.length with
  | zero =>
    have : s = [] := List.length_eq_zero.1 hl
    subst this
    intro q hq
    simp at hq
  | succ n =>
    rw [Function.iterate_succ_apply,
      Function.iterate_fixed (applyOnce_fixed s _ (applyOnce_resolved s hs t))]
    exact applyOnce_resolved s hs t

mutual
theorem occurs_applyOnce_single (x v : Nat) (t : Ty) :
    (r : Ty) → occurs x (applyOnce [(v, t)] r) = true →
      (occurs x r = true ∧ x ≠ v) ∨ occurs x t = true
  | Ty.TypeVar w => by
    intro h
    by_cases e : w = v
    · subst e
      simp [applyOnce, List.lookup] at h
      exact Or.inr h
    · have hb : (w == v) = false := by simpa using e
      simp only [applyOnce, List.lookup, hb, occurs, beq_iff_eq] at h
      left
      simp only [occurs, beq_iff_eq]
      exact ⟨h, h ▸ e⟩
  | Ty.Constructor n args => by
    intro h
    simp only [applyOnce, occurs] at h
    simpa only [occurs] using occursList_applyOnce_single x v t args h
theorem occursList_applyOnce_single (x v : Nat) (t : Ty) :
    (rs : List Ty) → occursList x (applyOnceList [(v, t)] rs) = true →
      (occursList x rs = true ∧ x ≠ v) ∨ occurs x t = true
  | [] => by intro h; simp [applyOnceList, occursList] at h
  | r :: rs => by
    intro h
    simp only [applyOnceList, occursList, Bool.or_eq_true] at h ⊢
    rcases h with h | h
    · rcases occurs_applyOnce_single x v t r h with ⟨h1, h2⟩ | h1
      · exact Or.inl ⟨Or.inl h1, h2⟩
      · exact Or.inr h1
    · rcases occursList_applyOnce_single x v t rs h with ⟨h1, h2⟩ | h1
      · exact Or.inl ⟨Or.inr h1, h2⟩
      · exact Or.inr h1
end

theorem bindVar_idempotent (v : Nat) (t : Ty) (s s1 : Substitution)
    (hs : Idempotent s) (ht : Resolved s t)
    (h : bindVar v t s = Except.ok s1) : Idempotent s1 := by
  unfold bindVar at h
  cases ho : occurs v t with
  | true => simp [ho] at h
  | false =>
    simp only [ho, Bool.false_eq_true, if_false, Except.ok.injEq] at h
    subst h
    have hap : ∀ r, apply [(v, t)] r = applyOnce [(v, t)] r := fun r => rfl
    -- occurrences in a new range type
    have key : ∀ p ∈ compose s [(v, t)], ∀ x : Nat, occurs x p.2 = true →
        x ≠ v ∧ ∀ q ∈ s, q.1 ≠ x := by
      intro p hp x hx
      simp only [compose, List.mem_append, List.mem_singleton, List.mem_map] at hp
      rcases hp with e | ⟨p0, hp0, e⟩
      · subst e
        refine ⟨fun e => ?_, fun q hq e => ?_⟩
        · subst e; simp [ho] at hx
        · subst e; simp [ht q hq] at hx
      · subst e
        simp only [hap] at hx
        rcases occurs_applyOnce_single x v t p0.2 hx with ⟨h1, h2⟩ | h1
        · refine ⟨h2, fun q hq e => ?_⟩
          subst e; simp [hs p0 hp0 q hq] at h1
        · refine ⟨fun e => ?_, fun q hq e => ?_⟩
          · subst e; simp [ho] at h1
          · subst e; simp [ht q hq] at h1
    intro p hp q hq
    cases hx : occurs q.1 p.2 with
    | false => rfl
    | true =>
      exfalso
      obtain ⟨h1, h2⟩ := key p hp q.1 hx
      simp only [compose, List.mem_append, List.mem_singleton, List.mem_map] at hq
      rcases hq with e | ⟨q0, hq0, e⟩
      · subst e; exact h1 rfl
      · subst e; exact h2 q0 hq0 rfl

theorem unifyArgs_idempotent
    (u : Ty → Ty → Substitution → Option (Except TypeError Substitution))
    (hu : ∀ a b s s1, Idempotent s → u a b s = some (Except.ok s1) → Idempotent s1)
    (as bs : List Ty) (s s1 : Substitution) (hs : Idempotent s)
    (h : unifyArgs u as bs s = some (Except.ok s1)) : Idempotent s1 := by
  induction as generalizing bs s with
  | nil =>
    simp only [unifyArgs, Option.some.injEq, Except.ok.injEq] at h
    rw [← h]; exact hs
  | cons a as ih =>
    cases bs with
    | nil =>
      simp only [unifyArgs, Option.some.injEq, Except.ok.injEq] at h
      rw [← h]; exact hs
    | cons b bs =>
      simp only [unifyArgs] at h
      cases hr : u a b s with
      | none => rw [hr] at h; simp at h
      | some r =>
        cases r with
        | error e => rw [hr] at h; simp at h
        | ok s2 =>
          rw [hr] at h
          exact ih bs s2 (hu a b s s2 hs hr) h

theorem unify_idempotent (fuel : Nat) (t1 t2 : Ty) (s s1 : Substitution)
    (hs : Idempotent s) (h : unify fuel t1 t2 s = some (Except.ok s1)) : Idempotent s1 := by
  induction fuel generalizing t1 t2 s s1 with
  | zero => simp [unify] at h
  | succ fuel ih =>
    have r1 := apply_resolved s hs t1
    have r2 := apply_resolved s hs t2
    unfold unify at h
    split at h
    next a b e1 e2 =>
      rw [e1] at r1; rw [e2] at r2
      split at h
      · simp only [Option.some.injEq, Except.ok.injEq] at h
        rw [← h]; exact hs
      · simp only [Option.some.injEq] at h
        exact bindVar_idempotent _ _ _ _ hs r2 h
    next a n args e1 e2 =>
      rw [e1] at r1; rw [e2] at r2
      simp only [Option.some.injEq] at h
      exact bindVar_idempotent _ _ _ _ hs r2 h
    next n args b e1 e2 =>
      rw [e1] at r1; rw [e2] at r2
      simp only [Option.some.injEq] at h
      exact bindVar_idempotent _ _ _ _ hs r1 h
    next n1 args1 n2 args2 e1 e2 =>
      split at h
      · simp at h
      · exact unifyArgs_idempotent (unify fuel) (fun a b s s1 => ih a b s s1) _ _ _ _ hs h

/-- C5 (occurs check): for every type variable `v` and every substitution that
leaves `v` unbound (the empty one included), unifying `TypeVar(v)` with
`Function(TypeVar(v), Int)` reaches an answer with any positive fuel, and the
answer is `OccursCheckError`.  More generally, whenever `unify` succeeds the
substitution it returns extends the given one only by bindings `x -> t` with `x`
not occurring in `t`; and from an idempotent substitution it returns an idempotent
one, in which no variable is bound to a type containing it. -/
theorem unify_occurs_check (v : Nat) :
    (∀ (fuel : Nat) (s : Substitution), s.lookup v = none →
      unify (fuel + 1) (Ty.TypeVar v) (Ty.Function (Ty.TypeVar v) Ty.Int) s
        = some (Except.error TypeError.OccursCheckError))
    ∧ (∀ (fuel : Nat) (t1 t2 : Ty) (s s1 : Substitution),
        unify fuel t1 t2 s = some (Except.ok s1) → Extends s s1)
    ∧ (∀ (fuel : Nat) (t1 t2 : Ty) (s s1 : Substitution), Idempotent s →
        unify fuel t1 t2 s = some (Except.ok s1) →
        Idempotent s1 ∧ ∀ p ∈ s1, occurs p.1 p.2 = false) := by
  refine ⟨?_, fun fuel t1 t2 s s1 h => unify_ok fuel t1 t2 s s1 h, ?_⟩
  · intro fuel s h
    have h1 := (apply_unbound s v h).1
    have h2 := (apply_unbound s v h).2
    unfold unify
    rw [h1, h2]
    simp [Ty.Function, bindVar, occurs, occursList]
  · intro fuel t1 t2 s s1 hs h
    have hi := unify_idempotent fuel t1 t2 s s1 hs h
    exact ⟨hi, fun p hp => hi p hp p hp⟩

/-- Witness of C5: the occurs check on variable 7 from the empty substitution, and
the successful unification of `Function(3, 3)` with `Function(4, Int)`. -/
theorem unify_occurs_check_witness :
    unify (0 + 1) (Ty.TypeVar 7) (Ty.Function (Ty.TypeVar 7) Ty.Int) []
        = some (Except.error TypeError.OccursCheckError)
    ∧ Extends [] [(4, Ty.Int), (3, Ty.Int)]
    ∧ (Idempotent [(4, Ty.Int), (3, Ty.Int)]
        ∧ ∀ p ∈ [(4, Ty.Int), (3, Ty.Int)], occurs p.1 p.2 = false) :=
  ⟨(unify_occurs_check 7).1 0 [] rfl,
    (unify_occurs_check 7).2.1 5 (Ty.Function (Ty.TypeVar 3) (Ty.TypeVar 3))
      (Ty.Function (Ty.TypeVar 4) Ty.Int) [] [(4, Ty.Int), (3, Ty.Int)] rfl,
    (unify_occurs_check 7).2.2 5 (Ty.Function (Ty.TypeVar 3) (Ty.TypeVar 3))
      (Ty.Function (Ty.TypeVar 4) Ty.Int) [] [(4, Ty.Int), (3, Ty.Int)]
      (fun p hp => absurd hp (List.not_mem_nil p)) rfl⟩

end TI

